import Mathlib

/-!
# libcppa: behavior composition and the thread-per-actor scheduling policy

A shallow embedding of `src/behavior.cpp` (the `continuation_decorator` and
`behavior::add_continuation`) and of `cppa/policy/no_scheduling.hpp`.

Callables of the C++ code may have side effects, so every callable is a
state transformer over a world `σ` (or `W`).  A definition that stands for
code which is not part of the two files is marked `Modelled from the spec`.

The policy is run by one consumer thread.  What producers do while the consumer
sleeps on the condition variable is given by a list of wake-ups, and the calls
on the mutex, the condition variable and the collaborators are recorded in a
trace.  The loops of the policy carry a bound on their iterations (`fuel`); the
theorems say how much fuel makes them return.

For the race between one `enqueue` and one `await_data` the two functions are
also given statement by statement, as the steps of two threads that a scheduler
interleaves (`interleaving`).
-/

namespace cppa

/-! ## Behaviors (`src/behavior.cpp`) -/

/-- Modelled from the spec: `partial_function` (`cppa/partial_function.hpp` is not
among the sources), a partial handler from a message to an optional message.
It runs in the world `σ`; `none` is the explicit "no match". -/
def partial_function (σ Msg : Type) : Type := Msg → σ → Option Msg × σ

/-- Modelled from the spec: `generic_timeout_definition`, the optional idle-timeout
duration of a behavior together with its timeout callback. -/
structure generic_timeout_definition (σ Dur : Type) where
  timeout : Dur
  handler : σ → σ

/-- Modelled from the spec: the plain Behavior, the implementer of
`detail::behavior_impl` other than the decorator (`cppa/behavior_impl.hpp` is not
among the sources): a guarded match function and a timeout definition.
`fn tup w` is the application of the match function to the caller's tuple `tup`
in world `w`; it yields the optional reply, the caller's tuple as the handler
left it, and the new world. -/
structure default_behavior_impl (σ Msg Dur : Type) where
  fn : Msg → σ → (Option Msg × Msg) × σ
  tdef : generic_timeout_definition σ Dur

namespace default_behavior_impl

variable {σ Msg Dur : Type}

/-- Modelled from the spec: `timeout()` of a plain Behavior, its idle-timeout duration. -/
def timeout (b : default_behavior_impl σ Msg Dur) : Dur := b.tdef.timeout

/-- Modelled from the spec: `invoke(any_tuple&)` of a plain Behavior, the application of
its guarded function to the caller's tuple. -/
def invoke_mut (b : default_behavior_impl σ Msg Dur) (tup : Msg) (w : σ) :
    (Option Msg × Msg) × σ :=
  b.fn tup w

/-- Modelled from the spec: `invoke(const any_tuple&)` of a plain Behavior, the
application of its guarded function to a private copy of the tuple. -/
def invoke (b : default_behavior_impl σ Msg Dur) (tup : Msg) (w : σ) : Option Msg × σ :=
  ((b.fn tup w).1.1, (b.fn tup w).2)

/-- Modelled from the spec: `defined_at` of a plain Behavior, the predicate form of
`invoke` without materializing a reply. -/
def defined_at (b : default_behavior_impl σ Msg Dur) (tup : Msg) (w : σ) : Bool :=
  (b.fn tup w).1.1.isSome

/-- Modelled from the spec: `handle_timeout()` of a plain Behavior runs its timeout
callback. -/
def handle_timeout (b : default_behavior_impl σ Msg Dur) (w : σ) : σ := b.tdef.handler w

/-- Modelled from the spec: `copy(newTimeoutDefinition)` of a plain Behavior, a Behavior
with the given timeout definition and the same matching. -/
def copy (b : default_behavior_impl σ Msg Dur) (tdef : generic_timeout_definition σ Dur) :
    default_behavior_impl σ Msg Dur :=
  { b with tdef := tdef }

end default_behavior_impl

/-- The two implementers of `detail::behavior_impl`: the plain Behavior, and the
class `continuation_decorator` of `behavior.cpp` with its members, the
base-class timeout, `m_fun` and `m_decorated`. -/
inductive behavior_impl (σ Msg Dur : Type) : Type where
  | plain (b : default_behavior_impl σ Msg Dur)
  | continuation_decorator (m_timeout : Dur) (m_fun : partial_function σ Msg)
      (m_decorated : behavior_impl σ Msg Dur)

/-- Ways in which a call can fail instead of returning. -/
inductive fault : Type where
  /-- a member is read through a null pointer -/
  | null_dereference
  /-- a `CPPA_REQUIRE` check does not hold -/
  | requirement_failed
  deriving DecidableEq, Repr

namespace behavior_impl

variable {σ Msg Dur : Type}

/-- The accessor `behavior_impl::timeout()`: the duration stored in the base class,
which the decorator's constructor sets. -/
def timeout : behavior_impl σ Msg Dur → Dur
  | plain b => b.timeout
  | continuation_decorator m_timeout _ _ => m_timeout

/-- The overload `invoke(any_tuple& tup)`.  For the decorator this is
`invoke_impl<any_tuple>`:
`auto res = m_decorated->invoke(tup); if (res) return m_fun(*res); return none;`.
The second component is the caller's tuple after the call. -/
def invoke_mut : behavior_impl σ Msg Dur → Msg → σ → (Option Msg × Msg) × σ
  | plain b, tup, w => b.invoke_mut tup w
  | continuation_decorator _ m_fun m_decorated, tup, w =>
    match invoke_mut m_decorated tup w with
    | ((some res, tup1), w1) =>
      let r := m_fun res w1
      ((r.1, tup1), r.2)
    | ((none, tup1), w1) => ((none, tup1), w1)

/-- The overload `invoke(const any_tuple& tup)`.  For the decorator this is
`invoke_impl<const any_tuple>`, with the same body. -/
def invoke : behavior_impl σ Msg Dur → Msg → σ → Option Msg × σ
  | plain b, tup, w => b.invoke tup w
  | continuation_decorator _ m_fun m_decorated, tup, w =>
    match invoke m_decorated tup w with
    | (some res, w1) => m_fun res w1
    | (none, w1) => (none, w1)

/-- The member `defined_at(const any_tuple& tup)`.  The decorator returns
`m_decorated->defined_at(tup)`. -/
def defined_at : behavior_impl σ Msg Dur → Msg → σ → Bool
  | plain b, tup, w => b.defined_at tup w
  | continuation_decorator _ _ m_decorated, tup, w => defined_at m_decorated tup w

/-- The member `handle_timeout()`.  The decorator forwards to
`m_decorated->handle_timeout()`. -/
def handle_timeout : behavior_impl σ Msg Dur → σ → σ
  | plain b, w => b.handle_timeout w
  | continuation_decorator _ _ m_decorated, w => handle_timeout m_decorated w

/-- The first link of a chain: the plain Behavior reached by following `m_decorated`. -/
def innermost : behavior_impl σ Msg Dur → default_behavior_impl σ Msg Dur
  | plain b => b
  | continuation_decorator _ _ m_decorated => innermost m_decorated

end behavior_impl

/-- The constructor `continuation_decorator(const partial_function& fun, pointer ptr)`
with a nullable `ptr`.  The base class is initialised first, from
`ptr->timeout()`; then `m_fun` and `m_decorated` are set; then the body checks
`CPPA_REQUIRE(m_decorated != nullptr)`. -/
def continuation_decorator.create {σ Msg Dur : Type} (fn : partial_function σ Msg)
    (ptr : Option (behavior_impl σ Msg Dur)) : Except fault (behavior_impl σ Msg Dur) :=
  match ptr with
  | none => .error .null_dereference
  | some p =>
    let m_timeout := p.timeout
    let m_decorated := ptr
    match m_decorated with
    | none => .error .requirement_failed
    | some d => .ok (.continuation_decorator m_timeout fn d)

/-- The member `copy(const generic_timeout_definition& tdef)`.  The decorator returns
`new continuation_decorator(m_fun, m_decorated->copy(tdef))`. -/
def behavior_impl.copy {σ Msg Dur : Type} :
    behavior_impl σ Msg Dur → generic_timeout_definition σ Dur →
      Except fault (behavior_impl σ Msg Dur)
  | .plain b, tdef => .ok (.plain (b.copy tdef))
  | .continuation_decorator _ m_fun m_decorated, tdef =>
    match behavior_impl.copy m_decorated tdef with
    | .error e => .error e
    | .ok p => continuation_decorator.create m_fun (some p)

/-- The handle class `behavior`: a possibly null pointer `m_impl` to the
implementation. -/
structure behavior (σ Msg Dur : Type) where
  m_impl : Option (behavior_impl σ Msg Dur)

/-- The member `behavior::add_continuation(const partial_function& fun)`:
`return {new continuation_decorator(fun, m_impl)};`. -/
def behavior.add_continuation {σ Msg Dur : Type} (self : behavior σ Msg Dur)
    (fn : partial_function σ Msg) : Except fault (behavior σ Msg Dur) :=
  match continuation_decorator.create fn self.m_impl with
  | .error e => .error e
  | .ok d => .ok { m_impl := some d }

/-- A chain of `add_continuation` calls, one per continuation, left to right. -/
def behavior.add_continuations {σ Msg Dur : Type} :
    behavior σ Msg Dur → List (partial_function σ Msg) → Except fault (behavior σ Msg Dur)
  | b, [] => .ok b
  | b, f :: fs =>
    match b.add_continuation f with
    | .error e => .error e
    | .ok b1 => behavior.add_continuations b1 fs

/-- The specification side of the composition: bind of the "optional match" monad
with a world, `OptionT (StateM σ)`, run from world `w`. -/
def optional_bind {σ Msg : Type} (x : σ → Option Msg × σ) (f : partial_function σ Msg) :
    σ → Option Msg × σ :=
  fun w => ((OptionT.mk (StateT.mk x : StateM σ (Option Msg)) >>= fun r =>
    OptionT.mk (StateT.mk (f r) : StateM σ (Option Msg))).run.run w : Id _)

/-! ## The scheduling policy (`cppa/policy/no_scheduling.hpp`) -/

/-- Modelled from the spec: the exit reason of an actor (`cppa/exit_reason.hpp` is
not among the sources); `not_exited` is told apart from the terminal reasons. -/
inductive exit_reason : Type where
  | not_exited
  | normal
  | other (code : Nat)
  deriving DecidableEq, Repr

/-- Modelled from the spec: the actor state (`cppa/actor_state.hpp` is not among the
sources): blocked, ready, and lifecycle states that play no part here. -/
inductive actor_state : Type where
  | blocked
  | ready
  | other (tag : Nat)
  deriving DecidableEq, Repr

/-- Modelled from the spec: the correlation id of a message; `valid` tells whether a
reply is pending for it. -/
structure message_id where
  value : Nat
  valid : Bool
  deriving DecidableEq, Repr

/-- Modelled from the spec: the message header, with the sender identity and the
correlation id. -/
structure message_header where
  sender : Nat
  id : message_id
  deriving DecidableEq, Repr

/-- Modelled from the spec: the mailbox element, an envelope of header and payload. -/
structure mailbox_element (M : Type) where
  hdr : message_header
  msg : M
  deriving DecidableEq, Repr

/-- Modelled from the spec: the enqueue outcome `intrusive::enqueue_result` (declared
with the queue, not among the sources): ordinary enqueue, first of a previously
empty queue, queue is closed. -/
inductive enqueue_result : Type where
  | enqueued
  | first_enqueued
  | queue_closed
  deriving DecidableEq, Repr

/-- Modelled from the spec: the message queue (`intrusive::single_reader_queue` is
not among the sources), seen by its single consumer: the elements in dequeue
order and whether the queue is permanently closed. -/
structure single_reader_queue (E : Type) where
  items : List E
  is_closed : Bool
  deriving DecidableEq, Repr

namespace single_reader_queue

variable {E : Type}

/-- Modelled from the spec: `push(element) -> {FirstOfEmpty, Ordinary, Closed}`.  A closed
queue takes no element; otherwise the element goes to the back, and the push
reports whether the queue was empty before. -/
def enqueue (q : single_reader_queue E) (e : E) : enqueue_result × single_reader_queue E :=
  if q.is_closed then (.queue_closed, q)
  else if q.items.isEmpty then (.first_enqueued, { q with items := [e] })
  else (.enqueued, { q with items := q.items ++ [e] })

/-- Modelled from the spec: `try_pop() -> optional(element)`, the front element if any. -/
def try_pop (q : single_reader_queue E) : Option E × single_reader_queue E :=
  match q.items with
  | [] => (none, q)
  | e :: rest => (some e, { q with items := rest })

/-- Modelled from the spec: `empty() -> bool`. -/
def empty (q : single_reader_queue E) : Bool := q.items.isEmpty

/-- Modelled from the spec: `closed() -> bool`. -/
def closed (q : single_reader_queue E) : Bool := q.is_closed

end single_reader_queue

/-- Modelled from the spec: the data of the actor execution context that the policy
reads and writes (the `Actor` template argument): mailbox, state flag, exit
reason and planned exit reason. -/
structure actor (M : Type) where
  mailbox : single_reader_queue (mailbox_element M)
  state : actor_state
  exit_reason : cppa.exit_reason
  planned_exit_reason : cppa.exit_reason
  deriving DecidableEq, Repr

/-- Modelled from the spec: `new_mailbox_element(header, message) -> element`. -/
def new_mailbox_element {M : Type} (hdr : message_header) (msg : M) : mailbox_element M :=
  { hdr := hdr, msg := msg }

/-- The calls the policy makes on its mutex `m_mtx`, its condition variable `m_cv`
and its collaborators, in program order.  `bounce rsn sender mid` is the call
`sync_request_bouncer{rsn}(sender, mid)`, which delivers one error reply to
`sender` for `mid` (modelled from the spec); `inc_running` and `dec_running`
are the calls on the actor registry. -/
inductive event : Type where
  | lock
  | unlock
  | notify_one
  | wait
  | wait_until (abs_time : Nat)
  | set_state (s : actor_state)
  | bounce (rsn : exit_reason) (sender : Nat) (mid : message_id)
  | resume
  | cleanup (rsn : exit_reason)
  | log_exception
  | inc_running
  | dec_running
  deriving DecidableEq, Repr

/-- One actor with its policy instance: the actor's data, the trace of the calls
made so far, and the world `W` on which the callbacks and the actor's own code
act. -/
structure system (M W : Type) where
  self : actor M
  trace : List event
  world : W

/-- The enumeration `std::cv_status`. -/
inductive cv_status : Type where
  | no_timeout
  | timeout
  deriving DecidableEq, Repr

/-- What one blocking call on `m_cv` meets: either it returns, with the `enqueue`
calls producers made while the waiter slept and the status `wait_until` reports
(`wait` has no status), or it throws. -/
inductive wakeup (M : Type) : Type where
  | returns (arrivals : List (message_header × M)) (status : cv_status)
  | throws

/-- Why a run does not return to its caller. -/
inductive halt : Type where
  /-- the bound on loop iterations of the model is used up -/
  | out_of_fuel
  /-- the thread still waits on `m_cv` when the modelled schedule ends -/
  | blocked
  /-- the wait primitive threw -/
  | exception
  /-- a `CPPA_REQUIRE` check does not hold -/
  | requirement_failed
  /-- an exception left the function a thread runs, so `std::terminate` is called -/
  | terminated
  deriving DecidableEq, Repr

/-- The result of a policy call: a value, or a halt with the system as it was then. -/
abbrev result (M W α : Type) : Type := Except (halt × system M W) α

namespace no_scheduling

variable {M W : Type}

/-- The member `enqueue(Actor* self, const message_header& hdr, any_tuple& msg)`. -/
def enqueue (s : system M W) (hdr : message_header) (msg : M) : system M W :=
  let ptr := new_mailbox_element hdr msg
  match s.self.mailbox.enqueue ptr with
  | (.first_enqueued, q) =>
    { s with
      self := { s.self with mailbox := q, state := .ready }
      trace := s.trace ++ [.lock, .set_state .ready, .notify_one, .unlock] }
  | (.queue_closed, q) =>
    if hdr.id.valid then
      { s with
        self := { s.self with mailbox := q }
        trace := s.trace ++ [.bounce s.self.exit_reason hdr.sender hdr.id] }
    else { s with self := { s.self with mailbox := q } }
  | (.enqueued, q) => { s with self := { s.self with mailbox := q } }

/-- The `enqueue` calls of producers, one after another. -/
def deliver (s : system M W) (arrivals : List (message_header × M)) : system M W :=
  arrivals.foldl (fun acc a => enqueue acc a.1 a.2) s

/-- The loop of `fetch_messages_impl`:
`for (auto e = next(); e != nullptr; e = next()) cb(e);` with
`next = self->mailbox().try_pop()`.  The callback acts on the world, not on the
mailbox that is being drained. -/
def fetch_messages_impl (cb : mailbox_element M → W → W) :
    Nat → system M W → result M W (system M W)
  | 0, s => .error (.out_of_fuel, s)
  | fuel + 1, s =>
    match s.self.mailbox.try_pop with
    | (none, q) => .ok { s with self := { s.self with mailbox := q } }
    | (some e, q) =>
      fetch_messages_impl cb fuel
        { s with self := { s.self with mailbox := q }, world := cb e s.world }

/-- The `do { cb(e); e = next(); } while (e);` loop of `try_fetch_messages`, entered
with the element `e` at hand. -/
def try_fetch_loop (cb : mailbox_element M → W → W) :
    Nat → mailbox_element M → system M W → result M W (system M W)
  | 0, _, s => .error (.out_of_fuel, s)
  | fuel + 1, e, s =>
    let s1 := { s with world := cb e s.world }
    match s1.self.mailbox.try_pop with
    | (none, q) => .ok { s1 with self := { s1.self with mailbox := q } }
    | (some e1, q) => try_fetch_loop cb fuel e1 { s1 with self := { s1.self with mailbox := q } }

/-- The member `try_fetch_messages(Actor* self, F cb)`. -/
def try_fetch_messages (cb : mailbox_element M → W → W) (fuel : Nat) (s : system M W) :
    result M W (Bool × system M W) :=
  match s.self.mailbox.try_pop with
  | (none, q) => .ok (false, { s with self := { s.self with mailbox := q } })
  | (some e, q) =>
    match try_fetch_loop cb fuel e { s with self := { s.self with mailbox := q } } with
    | .error h => .error h
    | .ok s1 => .ok (true, s1)

/-- The inner loop of the untimed `await_data`:
`while (self->mailbox().empty()) m_cv.wait(guard);`. -/
def wait_loop : List (wakeup M) → system M W → result M W (system M W × List (wakeup M))
  | [], s => if s.self.mailbox.empty then .error (.blocked, s) else .ok (s, [])
  | k :: ks, s =>
    if s.self.mailbox.empty then
      match k with
      | .throws => .error (.exception, { s with trace := s.trace ++ [.wait] })
      | .returns arrivals _ =>
        wait_loop ks (deliver { s with trace := s.trace ++ [.wait] } arrivals)
    else .ok (s, k :: ks)

/-- The member `await_data(Actor* self)`:
`while (empty) { lock_type guard(m_mtx); while (empty) m_cv.wait(guard); }`.
The guard is released at the end of each round of the outer loop, and when an
exception leaves the round. -/
def await_data : Nat → List (wakeup M) → system M W →
    result M W (system M W × List (wakeup M))
  | 0, _, s => .error (.out_of_fuel, s)
  | fuel + 1, ks, s =>
    if s.self.mailbox.empty then
      match wait_loop ks { s with trace := s.trace ++ [.lock] } with
      | .error (.exception, s1) =>
        .error (.exception, { s1 with trace := s1.trace ++ [.unlock] })
      | .error e => .error e
      | .ok (s1, ks1) => await_data fuel ks1 { s1 with trace := s1.trace ++ [.unlock] }
    else .ok (s, ks)

/-- The inner loop of the timed `await_data`:
`while (empty) { if (m_cv.wait_until(guard, abs_time) == timeout) return false; }`.
The flag is `false` when the function returns `false` from inside the loop and
`true` when the loop ends. -/
def wait_until_loop (abs_time : Nat) :
    List (wakeup M) → system M W → result M W (Bool × system M W × List (wakeup M))
  | [], s => if s.self.mailbox.empty then .error (.blocked, s) else .ok (true, s, [])
  | k :: ks, s =>
    if s.self.mailbox.empty then
      match k with
      | .throws => .error (.exception, { s with trace := s.trace ++ [.wait_until abs_time] })
      | .returns arrivals status =>
        let s1 := deliver { s with trace := s.trace ++ [.wait_until abs_time] } arrivals
        if status = .timeout then .ok (false, s1, ks)
        else wait_until_loop abs_time ks s1
    else .ok (true, s, k :: ks)

/-- The outer loop of the timed `await_data`. -/
def await_data_timed_loop (abs_time : Nat) : Nat → List (wakeup M) → system M W →
    result M W (Bool × system M W × List (wakeup M))
  | 0, _, s => .error (.out_of_fuel, s)
  | fuel + 1, ks, s =>
    if s.self.mailbox.empty then
      match wait_until_loop abs_time ks { s with trace := s.trace ++ [.lock] } with
      | .error (.exception, s1) =>
        .error (.exception, { s1 with trace := s1.trace ++ [.unlock] })
      | .error e => .error e
      | .ok (false, s1, ks1) => .ok (false, { s1 with trace := s1.trace ++ [.unlock] }, ks1)
      | .ok (true, s1, ks1) =>
        await_data_timed_loop abs_time fuel ks1 { s1 with trace := s1.trace ++ [.unlock] }
    else .ok (true, s, ks)

/-- The member `await_data(Actor* self, const timeout_type& abs_time)`:
`CPPA_REQUIRE(!self->mailbox().closed());`, then the loops, then `return true;`. -/
def await_data_timed (abs_time : Nat) (fuel : Nat) (ks : List (wakeup M)) (s : system M W) :
    result M W (Bool × system M W × List (wakeup M)) :=
  if s.self.mailbox.closed then .error (.requirement_failed, s)
  else await_data_timed_loop abs_time fuel ks s

/-- The member `fetch_messages(Actor* self, F cb)`:
`await_data(self); fetch_messages_impl(self, cb);`.  The function is declared
`bool` and its body ends without a `return` statement.  A call in which
`fetch_messages_impl` returns reaches that end, and the behaviour of such a call
is undefined: it has no result, `none`, and nothing is said about what it has
done.  A call that halts before that end halts as the statement it halts in. -/
def fetch_messages (cb : mailbox_element M → W → W) (fuel : Nat) (ks : List (wakeup M))
    (s : system M W) : Option (result M W (Bool × system M W × List (wakeup M))) :=
  match await_data fuel ks s with
  | .error h => some (.error h)
  | .ok (s1, _) =>
    match fetch_messages_impl cb fuel s1 with
    | .error h => some (.error h)
    | .ok _ => none

/-- Modelled from the spec: the tri-state result `timed_fetch_result` of the timed
fetch (its declaration is not among the sources). -/
inductive timed_fetch_result : Type where
  | no_message
  | indeterminate
  | success
  deriving DecidableEq, Repr

/-- The member `fetch_messages(Actor* self, F cb, timeout_type abs_time)`. -/
def fetch_messages_timed (cb : mailbox_element M → W → W) (abs_time : Nat) (fuel : Nat)
    (ks : List (wakeup M)) (s : system M W) :
    result M W (timed_fetch_result × system M W × List (wakeup M)) :=
  match await_data_timed abs_time fuel ks s with
  | .error h => .error h
  | .ok (false, s1, ks1) => .ok (.no_message, s1, ks1)
  | .ok (true, s1, ks1) =>
    match fetch_messages_impl cb fuel s1 with
    | .error h => .error h
    | .ok s2 => .ok (.success, s2, ks1)

/-- Modelled from the spec: what `resume` reports, `resumable::resume_result` (its
declaration is not among the sources): done, or not done. -/
inductive resume_result : Type where
  | resume_later
  | done
  deriving DecidableEq, Repr

/-- Modelled from the spec: the members of the `Actor` template argument that run code
of the actor class, which is not among the sources: one resume step, the setter
`planned_exit_reason(value)` and the cleanup hook.  They act on the actor's data
and on the world. -/
structure actor_hooks (M W : Type) where
  resume : actor M → W → resume_result × actor M × W
  set_planned_exit_reason : exit_reason → actor M → actor M
  cleanup : exit_reason → actor M → W → actor M × W

/-- The `for (;;)` loop of the worker thread that `launch` starts: wait for data
(an exception is written to `std::cerr` and thrown on), resume once, on `done`
call `self->planned_exit_reason(exit_reason::normal)`, read the planned exit
reason, and if it is not `not_exited` call `cleanup` with it and return. -/
def worker_loop (h : actor_hooks M W) : Nat → List (wakeup M) → system M W →
    result M W (system M W × List (wakeup M))
  | 0, _, s => .error (.out_of_fuel, s)
  | fuel + 1, ks, s =>
    match await_data (fuel + 1) ks s with
    | .error (.exception, s1) =>
      .error (.exception, { s1 with trace := s1.trace ++ [.log_exception] })
    | .error e => .error e
    | .ok (s1, ks1) =>
      let r := h.resume s1.self s1.world
      let s2 : system M W := { self := r.2.1, trace := s1.trace ++ [.resume], world := r.2.2 }
      let s3 : system M W :=
        if r.1 = .done then { s2 with self := h.set_planned_exit_reason .normal s2.self }
        else s2
      let per := s3.self.planned_exit_reason
      if per ≠ .not_exited then
        let c := h.cleanup per s3.self s3.world
        .ok ({ self := c.1, trace := s3.trace ++ [.cleanup per], world := c.2 }, ks1)
      else worker_loop h fuel ks1 s3

/-- The system after the resume step of one round of the worker loop:
`if (self->resume(&fself) == resumable::done) self->planned_exit_reason(exit_reason::normal);`
run on the system `s1` that `await_data` left. -/
def resumed (h : actor_hooks M W) (s1 : system M W) : system M W :=
  { self :=
      if (h.resume s1.self s1.world).1 = .done then
        h.set_planned_exit_reason .normal (h.resume s1.self s1.world).2.1
      else (h.resume s1.self s1.world).2.1
    trace := s1.trace ++ [.resume]
    world := (h.resume s1.self s1.world).2.2 }

/-- The system after `auto per = self->planned_exit_reason(); self->cleanup(per);`. -/
def cleaned (h : actor_hooks M W) (s3 : system M W) : system M W :=
  { self := (h.cleanup s3.self.planned_exit_reason s3.self s3.world).1
    trace := s3.trace ++ [.cleanup s3.self.planned_exit_reason]
    world := (h.cleanup s3.self.planned_exit_reason s3.self s3.world).2 }

/-- The member `launch(Actor* self)` together with the run of the worker thread it
starts: `get_actor_registry()->inc_running();`, then in the thread a scope guard
that calls `dec_running()`, then the loop.  The guard's destructor runs at the
`return` after `cleanup`.  The exception that the `catch` block throws on is
inside no other handler: it leaves the function the thread runs, `std::terminate`
is called, and the guard's destructor does not run. -/
def launch (h : actor_hooks M W) (fuel : Nat) (ks : List (wakeup M)) (s : system M W) :
    result M W (system M W × List (wakeup M)) :=
  match worker_loop h fuel ks { s with trace := s.trace ++ [.inc_running] } with
  | .ok (s1, ks1) => .ok ({ s1 with trace := s1.trace ++ [.dec_running] }, ks1)
  | .error (.exception, s1) => .error (.terminated, s1)
  | .error e => .error e

/-- Modelled from the spec: the running-actor count of the actor registry after the
calls in a trace, from the value `base` before them: `inc_running()` adds one,
`dec_running()` takes one away. -/
def running (base : Int) (tr : List event) : Int :=
  base + tr.count .inc_running - tr.count .dec_running

/-- The events a call of `enqueue` can add to the trace. -/
def by_enqueue : event → Bool
  | .lock | .unlock | .notify_one | .set_state _ | .bounce _ _ _ => true
  | _ => false

/-- The events a call of the untimed `await_data` can add to the trace: its own
calls on the mutex and the condition variable, and what producers do meanwhile. -/
def by_await : event → Bool
  | .wait => true
  | e => by_enqueue e

/-- The events a call of the timed `await_data` with the deadline `abs_time` can add to
the trace: every `wait_until` among them carries `abs_time`. -/
def by_timed_await (abs_time : Nat) : event → Bool
  | .wait_until t => t == abs_time
  | e => by_enqueue e

/-- The events the worker loop can add to the trace before it calls `cleanup`. -/
def by_round : event → Bool
  | .resume | .log_exception => true
  | e => by_await e

/-- The events the worker loop can add to the trace. -/
def by_worker : event → Bool
  | .cleanup _ => true
  | e => by_round e

/-- The trace of `s1` is the trace of `s` followed by events that all satisfy `P`. -/
def extends_by (P : event → Bool) (s s1 : system M W) : Prop :=
  ∃ mid, s1.trace = s.trace ++ mid ∧ ∀ e ∈ mid, P e = true

/-- The system after the consumer has drained the mailbox with `cb`: the specification
side of the fetch loops.  The mailbox is empty and the world has seen `cb` once
per element, front element first. -/
def drained (cb : mailbox_element M → W → W) (s : system M W) : system M W :=
  { s with
    self := { s.self with mailbox := { s.self.mailbox with items := [] } }
    world := s.self.mailbox.items.foldl (fun w e => cb e w) s.world }

end no_scheduling

/-! ## One `enqueue` against one `await_data`, step by step -/

namespace interleaving

open no_scheduling

/-- The two threads: the consumer inside `await_data(Actor* self)` and a producer
inside `enqueue`. -/
inductive thread : Type where
  | waiter
  | producer
  deriving DecidableEq, Repr

/-- A choice of the scheduler: let a thread take its next step, or let the wait on the
condition variable end without a notification (a spurious wake-up). -/
inductive action : Type where
  | run (t : thread)
  | spurious
  deriving DecidableEq, Repr

/-- Where the consumer stands in
`while (empty) { lock_type guard(m_mtx); while (empty) m_cv.wait(guard); }`. -/
inductive waiter_pc : Type where
  /-- before the test of the outer `while` -/
  | outer_check
  /-- before `lock_type guard(m_mtx)` -/
  | lock
  /-- before the test of the inner `while`, the mutex held -/
  | inner_check
  /-- before `m_cv.wait(guard)`, the mutex held -/
  | wait
  /-- inside `wait`: the mutex released, asleep on `m_cv` -/
  | blocked
  /-- inside `wait`: woken, before the mutex is taken again -/
  | reacquire
  /-- after the inner loop, before the guard is destroyed -/
  | unlock
  /-- after the outer loop -/
  | returned
  deriving DecidableEq, Repr

/-- Where the producer stands in `enqueue`. -/
inductive producer_pc : Type where
  /-- before `self->mailbox().enqueue(ptr)` -/
  | push
  /-- case `first_enqueued`, before `lock_type guard(m_mtx)` -/
  | lock
  /-- before `self->set_state(actor_state::ready)`, the mutex held -/
  | set_state
  /-- before `m_cv.notify_one()`, the mutex held -/
  | notify
  /-- before the guard is destroyed -/
  | unlock
  /-- case `queue_closed`, before `if (hdr.id.valid())` -/
  | bounce
  /-- after the `switch` -/
  | finished
  deriving DecidableEq, Repr

/-- The two threads and what they share: the actor with the trace, the arguments of the
producer's call, the holder of `m_mtx`, whether `notify_one` has chosen the
sleeping consumer, and where each thread stands. -/
structure config (M W : Type) where
  sys : system M W
  hdr : message_header
  msg : M
  owner : Option thread
  notified : Bool
  wpc : waiter_pc
  ppc : producer_pc

variable {M W : Type}

/-- The system with one more event in its trace. -/
def log (s : system M W) (e : event) : system M W := { s with trace := s.trace ++ [e] }

/-- The next step of the consumer, if it can take one.  Taking the mutex needs it to be
free; `m_cv.wait` releases the mutex and falls asleep in one step, and the
sleeper goes on only once it is notified. -/
def waiter_step (c : config M W) : Option (config M W) :=
  match c.wpc with
  | .outer_check =>
    some { c with wpc := if c.sys.self.mailbox.empty then .lock else .returned }
  | .lock =>
    if c.owner.isNone then
      some { c with owner := some .waiter, wpc := .inner_check, sys := log c.sys .lock }
    else none
  | .inner_check =>
    some { c with wpc := if c.sys.self.mailbox.empty then .wait else .unlock }
  | .wait =>
    some { c with owner := none, notified := false, wpc := .blocked, sys := log c.sys .wait }
  | .blocked => if c.notified then some { c with notified := false, wpc := .reacquire } else none
  | .reacquire =>
    if c.owner.isNone then some { c with owner := some .waiter, wpc := .inner_check } else none
  | .unlock => some { c with owner := none, wpc := .outer_check, sys := log c.sys .unlock }
  | .returned => none

/-- The next step of the producer, if it can take one.  The push is one step of the
queue; `notify_one` reaches the consumer only if it is asleep on `m_cv` at that
moment. -/
def producer_step (c : config M W) : Option (config M W) :=
  match c.ppc with
  | .push =>
    match c.sys.self.mailbox.enqueue (new_mailbox_element c.hdr c.msg) with
    | (.first_enqueued, q) =>
      some { c with sys := { c.sys with self := { c.sys.self with mailbox := q } }, ppc := .lock }
    | (.queue_closed, q) =>
      some { c with sys := { c.sys with self := { c.sys.self with mailbox := q } },
                    ppc := .bounce }
    | (.enqueued, q) =>
      some { c with sys := { c.sys with self := { c.sys.self with mailbox := q } },
                    ppc := .finished }
  | .lock =>
    if c.owner.isNone then
      some { c with owner := some .producer, ppc := .set_state, sys := log c.sys .lock }
    else none
  | .set_state =>
    some { c with
      sys := log { c.sys with self := { c.sys.self with state := .ready } } (.set_state .ready)
      ppc := .notify }
  | .notify =>
    some { c with
      notified := if c.wpc = .blocked then true else c.notified
      sys := log c.sys .notify_one
      ppc := .unlock }
  | .unlock => some { c with owner := none, ppc := .finished, sys := log c.sys .unlock }
  | .bounce =>
    some { c with
      sys := if c.hdr.id.valid then
          log c.sys (.bounce c.sys.self.exit_reason c.hdr.sender c.hdr.id)
        else c.sys
      ppc := .finished }
  | .finished => none

/-- One step of the scheduler's choice, if that choice is possible. -/
def step (a : action) (c : config M W) : Option (config M W) :=
  match a with
  | .run .waiter => waiter_step c
  | .run .producer => producer_step c
  | .spurious =>
    if c.wpc = .blocked ∧ c.notified = false then some { c with wpc := .reacquire } else none

/-- An interleaving: the choices of the scheduler, taken one after another. -/
def run : List action → config M W → Option (config M W)
  | [], c => some c
  | a :: rest, c =>
    match step a c with
    | none => none
    | some c1 => run rest c1

/-- The start: the consumer enters `await_data`, the producer enters
`enqueue(self, hdr, msg)`, the mutex is free. -/
def start (s : system M W) (hdr : message_header) (msg : M) : config M W :=
  { sys := s, hdr := hdr, msg := msg, owner := none, notified := false,
    wpc := .outer_check, ppc := .push }

/-- A bound on the steps still to come: sixteen for each wake-up that can still reach
the consumer, plus the distance of each thread from its end. -/
def rank (c : config M W) : Nat :=
  16 * ((match c.ppc with
          | .push | .lock | .set_state | .notify => 1
          | _ => 0) + (if c.notified then 1 else 0)) +
    (match c.wpc with
      | .outer_check => if c.sys.self.mailbox.empty then 10 else 1
      | .lock => 9
      | .inner_check => 8
      | .wait => 7
      | .blocked => 6
      | .reacquire => 9
      | .unlock => 2
      | .returned => 0) +
    (match c.ppc with
      | .push => 5
      | .lock => 4
      | .set_state => 3
      | .notify => 2
      | .unlock => 1
      | .bounce => 1
      | .finished => 0)

/-- What holds of every configuration that an interleaving reaches from an empty open
mailbox: the mailbox holds the producer's element once the push is done and
nothing before, the mutex is held by the thread that stands between its lock
and its unlock, a consumer about to wait was there before the producer took the
mutex, and a consumer asleep and not notified has the producer's `notify_one`
still before it. -/
def invariant (c : config M W) : Prop :=
  c.sys.self.mailbox.is_closed = false ∧
    c.sys.self.mailbox.items =
      (if c.ppc = .push then [] else [new_mailbox_element c.hdr c.msg]) ∧
    c.ppc ≠ .bounce ∧
    (c.owner = some .waiter ↔ (c.wpc = .inner_check ∨ c.wpc = .wait ∨ c.wpc = .unlock)) ∧
    (c.owner = some .producer ↔
      (c.ppc = .set_state ∨ c.ppc = .notify ∨ c.ppc = .unlock)) ∧
    (c.wpc = .wait → (c.ppc = .push ∨ c.ppc = .lock)) ∧
    (c.wpc = .blocked → c.notified = false →
      (c.ppc = .push ∨ c.ppc = .lock ∨ c.ppc = .set_state ∨ c.ppc = .notify)) ∧
    (c.notified = true → c.wpc = .blocked) ∧
    ((c.wpc = .unlock ∨ c.wpc = .returned) → c.ppc ≠ .push)

end interleaving

/-! ## Concrete inputs -/

namespace sample

/-- A world that records which handlers ran: `1` for the match function of
`plainA`, `2` for `contF`, `3` for `contG`. -/
abbrev Log : Type := List Nat

/-- A plain behavior on numbers: declines `0`, answers `2 * tup` otherwise, and
leaves the caller's tuple incremented. -/
def plainA : behavior_impl Log Nat Nat :=
  .plain
    { fn := fun tup w =>
        if tup = 0 then ((none, tup), w) else ((some (2 * tup), tup + 1), w ++ [1])
      tdef := { timeout := 5, handler := fun w => w ++ [9] } }

/-- A continuation that declines every number from `10` on. -/
def contF : partial_function Log Nat :=
  fun r w => (if r < 10 then some (r + 1) else none, w ++ [2])

/-- A continuation that accepts every number. -/
def contG : partial_function Log Nat :=
  fun r w => (some (r + 100), w ++ [3])

/-- The decorator built from `(contF, plainA)`. -/
def decFA : behavior_impl Log Nat Nat := .continuation_decorator 5 contF plainA

/-- A timeout definition other than the one of `plainA`. -/
def tdef7 : generic_timeout_definition Log Nat := { timeout := 7, handler := fun w => w ++ [8] }

/-- A world that records the payloads a callback has seen. -/
abbrev Seen : Type := List Nat

/-- A callback that records the payload of each element. -/
def record : mailbox_element Nat → Seen → Seen := fun e w => w ++ [e.msg]

/-- A header without a pending reply. -/
def plain_hdr (sender : Nat) : message_header :=
  { sender := sender, id := { value := 0, valid := false } }

/-- A header of a request that waits for a reply. -/
def request_hdr (sender mid : Nat) : message_header :=
  { sender := sender, id := { value := mid, valid := true } }

/-- An idle actor: state blocked, empty open mailbox, nothing traced yet. -/
def idle : system Nat Seen :=
  { self :=
      { mailbox := { items := [], is_closed := false }
        state := .blocked
        exit_reason := .not_exited
        planned_exit_reason := .not_exited }
    trace := []
    world := [] }

/-- The idle actor after one producer has sent `10`, `20` and `30`. -/
def loaded : system Nat Seen :=
  no_scheduling.enqueue
    (no_scheduling.enqueue (no_scheduling.enqueue idle (plain_hdr 1) 10) (plain_hdr 1) 20)
    (plain_hdr 1) 30

/-- An actor that has exited with reason `other 3`; its mailbox is closed. -/
def exited : system Nat Seen :=
  { self :=
      { mailbox := { items := [], is_closed := true }
        state := .other 0
        exit_reason := .other 3
        planned_exit_reason := .other 3 }
    trace := []
    world := [] }

/-- An actor class whose setter `planned_exit_reason(value)` assigns the member, and
whose resume step drains the mailbox, plans the exit reason `other 7` and
reports `done`. -/
def quitting : no_scheduling.actor_hooks Nat Seen :=
  { resume := fun a w =>
      (.done, { a with mailbox := { a.mailbox with items := [] },
                       planned_exit_reason := .other 7 }, w)
    set_planned_exit_reason := fun r a => { a with planned_exit_reason := r }
    cleanup := fun r a w => ({ a with exit_reason := r }, w) }

/-- An actor class with the same setter whose resume step drains the mailbox, plans
the exit reason `other 7` and reports that it wants to be resumed later. -/
def yielding : no_scheduling.actor_hooks Nat Seen :=
  { quitting with
    resume := fun a w =>
      (.resume_later, { a with mailbox := { a.mailbox with items := [] },
                               planned_exit_reason := .other 7 }, w) }

/-- An actor class with a storing setter whose resume step hands the front element of
the mailbox to the world and reports `done` once the mailbox is empty. -/
def draining : no_scheduling.actor_hooks Nat Seen :=
  { quitting with
    resume := fun a w =>
      match a.mailbox.items with
      | [] => (.done, a, w)
      | e :: rest =>
        (if rest.isEmpty then .done else .resume_later,
          { a with mailbox := { a.mailbox with items := rest } }, w ++ [e.msg]) }

/-- The interleaving in which the producer's push falls between the consumer's inner
check and its `wait`: the producer then has to wait for the mutex until the
consumer is asleep. -/
def critical : List interleaving.action :=
  [.run .waiter, .run .waiter, .run .waiter, .run .producer, .run .waiter,
   .run .producer, .run .producer, .run .producer, .run .producer,
   .run .waiter, .run .waiter, .run .waiter, .run .waiter, .run .waiter]

end sample

/-! ## Behaviors: lemmas -/

section behavior_lemmas

variable {σ Msg Dur : Type}

theorem optional_bind_eq (x : σ → Option Msg × σ) (f : partial_function σ Msg) (w : σ) :
    optional_bind x f w =
      match x w with
      | (some r, w1) => f r w1
      | (none, w1) => (none, w1) := by
  unfold optional_bind
  simp only [OptionT.run, OptionT.mk, bind, OptionT.bind, StateT.bind, StateT.run, StateT.mk]
  rcases h : x w with ⟨_ | r, w1⟩ <;> simp [pure, StateT.pure]

theorem create_some (f : partial_function σ Msg) (a : behavior_impl σ Msg Dur) :
    continuation_decorator.create f (some a) =
      .ok (.continuation_decorator a.timeout f a) := rfl

theorem create_some_inv {f : partial_function σ Msg} {a d : behavior_impl σ Msg Dur}
    (h : continuation_decorator.create f (some a) = .ok d) :
    d = .continuation_decorator a.timeout f a := by
  rw [create_some] at h
  exact (Except.ok.inj h).symm

/-- The const overload gives the reply and the world of the mutable overload. -/
theorem invoke_eq_invoke_mut (a : behavior_impl σ Msg Dur) (m : Msg) (w : σ) :
    a.invoke m w = ((a.invoke_mut m w).1.1, (a.invoke_mut m w).2) := by
  induction a generalizing m w with
  | plain b => rfl
  | continuation_decorator t f a ih =>
    simp only [behavior_impl.invoke, behavior_impl.invoke_mut, ih]
    rcases h : a.invoke_mut m w with ⟨⟨_ | r, t1⟩, w1⟩ <;> simp

/-- A message on which `invoke` yields a reply is in the domain reported by
`defined_at`. -/
theorem defined_at_of_invoke (a : behavior_impl σ Msg Dur) (m : Msg) (w : σ)
    (h : (a.invoke m w).1.isSome = true) : a.defined_at m w = true := by
  induction a generalizing m w with
  | plain b =>
    simpa [behavior_impl.invoke, behavior_impl.defined_at, default_behavior_impl.invoke,
      default_behavior_impl.defined_at] using h
  | continuation_decorator t f a ih =>
    simp only [behavior_impl.defined_at]
    apply ih
    simp only [behavior_impl.invoke] at h
    rcases h1 : a.invoke m w with ⟨_ | r, w1⟩
    · rw [h1] at h; simp at h
    · simp

theorem decorator_invoke_fun (t : Dur) (f : partial_function σ Msg)
    (a : behavior_impl σ Msg Dur) (m : Msg) :
    (behavior_impl.continuation_decorator t f a).invoke m = optional_bind (a.invoke m) f := by
  funext w
  rw [optional_bind_eq]; simp only [behavior_impl.invoke]

theorem foldl_optional_bind_none (fs : List (partial_function σ Msg))
    (x : σ → Option Msg × σ) (w w1 : σ) (h : x w = (none, w1)) :
    fs.foldl optional_bind x w = (none, w1) := by
  induction fs generalizing x with
  | nil => simpa using h
  | cons f fs ih =>
    simp only [List.foldl_cons]
    apply ih
    rw [optional_bind_eq, h]

theorem add_continuations_some (a : behavior_impl σ Msg Dur)
    (fs : List (partial_function σ Msg)) :
    ∃ d, (behavior.mk (some a)).add_continuations fs = .ok { m_impl := some d } ∧
      (∀ m, d.invoke m = fs.foldl optional_bind (a.invoke m)) ∧
      (∀ m w, d.defined_at m w = a.defined_at m w) := by
  induction fs generalizing a with
  | nil => exact ⟨a, rfl, fun _ => rfl, fun _ _ => rfl⟩
  | cons f fs ih =>
    obtain ⟨d, hd, hinv, hdef⟩ := ih (.continuation_decorator a.timeout f a)
    refine ⟨d, ?_, ?_, ?_⟩
    · simpa [behavior.add_continuations, behavior.add_continuation, create_some] using hd
    · intro m
      rw [hinv m, decorator_invoke_fun]; rfl
    · intro m w
      rw [hdef m w]; rfl

theorem copy_preserves (a : behavior_impl σ Msg Dur) (tdef : generic_timeout_definition σ Dur) :
    ∃ a1, a.copy tdef = .ok a1 ∧
      (∀ m w, a1.invoke_mut m w = a.invoke_mut m w) ∧
      (∀ m w, a1.invoke m w = a.invoke m w) ∧
      (∀ m w, a1.defined_at m w = a.defined_at m w) := by
  induction a with
  | plain b => exact ⟨_, rfl, fun _ _ => rfl, fun _ _ => rfl, fun _ _ => rfl⟩
  | continuation_decorator t f a ih =>
    obtain ⟨a1, h1, hm, hc, hd⟩ := ih
    refine ⟨.continuation_decorator a1.timeout f a1, ?_, ?_, ?_, ?_⟩
    · simp only [behavior_impl.copy, h1, create_some]
    · intro m w; simp only [behavior_impl.invoke_mut, hm]
    · intro m w; simp only [behavior_impl.invoke, hc]
    · intro m w; simp only [behavior_impl.defined_at, hd]

end behavior_lemmas

/-! ## Behaviors: the claims -/

/-- C1: `invoke` on the continuation decorator built from `(f, A)` is the optional
bind of `A.invoke m` with `f`, for the const overload and for the mutable one
(which in addition hands the caller's tuple back as `A` left it).  When `A`
yields `r` the result is `f r`, run in the world `A` left, so it is "no match"
when `f` declines `r`; when `A` declines the result is "no match" in the world
`A` left, whatever `f` is: `f` is not run. -/
theorem C1_invoke_is_optional_bind {σ Msg Dur : Type} (A d : behavior_impl σ Msg Dur)
    (f : partial_function σ Msg) (m : Msg) (w : σ)
    (hd : continuation_decorator.create f (some A) = .ok d) :
    d.invoke m w = optional_bind (A.invoke m) f w ∧
      ((d.invoke_mut m w).1.1, (d.invoke_mut m w).2) =
        optional_bind (fun v => ((A.invoke_mut m v).1.1, (A.invoke_mut m v).2)) f w ∧
      (d.invoke_mut m w).1.2 = (A.invoke_mut m w).1.2 ∧
      (∀ r w1, A.invoke m w = (some r, w1) → d.invoke m w = f r w1) ∧
      (∀ w1, A.invoke m w = (none, w1) → d.invoke m w = (none, w1)) ∧
      (∀ r t1 w1, A.invoke_mut m w = ((some r, t1), w1) →
        d.invoke_mut m w = (((f r w1).1, t1), (f r w1).2)) ∧
      (∀ t1 w1, A.invoke_mut m w = ((none, t1), w1) →
        d.invoke_mut m w = ((none, t1), w1)) := by
  have hd1 := create_some_inv hd
  subst hd1
  refine ⟨?_, ?_, ?_, ?_, ?_, ?_, ?_⟩
  · rw [optional_bind_eq]; simp only [behavior_impl.invoke]
  · rw [optional_bind_eq]; simp only [behavior_impl.invoke_mut]
    rcases h : A.invoke_mut m w with ⟨⟨_ | r, t1⟩, w1⟩ <;> simp
  · simp only [behavior_impl.invoke_mut]
    rcases h : A.invoke_mut m w with ⟨⟨_ | r, t1⟩, w1⟩ <;> simp
  · intro r w1 h; simp only [behavior_impl.invoke, h]
  · intro w1 h; simp only [behavior_impl.invoke, h]
  · intro r t1 w1 h; simp only [behavior_impl.invoke_mut, h]
  · intro t1 w1 h; simp only [behavior_impl.invoke_mut, h]

/-- C1 at `(contF, plainA)`: on the tuple `0`, which `plainA` declines, the decorator
declines and the log stays empty (`contF` would have written `2`). -/
theorem C1_invoke_is_optional_bind_witness :
    continuation_decorator.create sample.contF (some sample.plainA) = .ok sample.decFA ∧
      sample.decFA.invoke 0 [] = (none, []) ∧
      sample.decFA.invoke 3 [] = (some 7, [1, 2]) :=
  ⟨rfl,
   (C1_invoke_is_optional_bind sample.plainA sample.decFA sample.contF 0 [] rfl).2.2.2.2.1 [] rfl,
   (C1_invoke_is_optional_bind sample.plainA sample.decFA sample.contF 3 [] rfl).2.2.2.1 6 [1] rfl⟩

/-- C2: composition law.  When `A` accepts `m` with result `r` and the continuation
`B` declines `r`, then on `A.add_continuation(B)` `invoke(m)` is "no match" (in
both overloads) while `defined_at(m)` is `true`. -/
theorem C2_composition_law {σ Msg Dur : Type} (A : behavior_impl σ Msg Dur)
    (B : partial_function σ Msg) (m r : Msg) (w w1 w2 : σ)
    (hA : A.invoke m w = (some r, w1)) (hB : B r w1 = (none, w2)) :
    ∃ d, (behavior.mk (some A)).add_continuation B = .ok { m_impl := some d } ∧
      d.invoke m w = (none, w2) ∧
      (d.invoke_mut m w).1.1 = none ∧ (d.invoke_mut m w).2 = w2 ∧
      d.defined_at m w = true := by
  have hinv : (behavior_impl.continuation_decorator A.timeout B A).invoke m w = (none, w2) := by
    simp only [behavior_impl.invoke, hA, hB]
  have hmut := invoke_eq_invoke_mut (behavior_impl.continuation_decorator A.timeout B A) m w
  rw [hinv] at hmut
  refine ⟨.continuation_decorator A.timeout B A, rfl, hinv, ?_, ?_, ?_⟩
  · exact (congrArg Prod.fst hmut).symm
  · exact (congrArg Prod.snd hmut).symm
  · simp only [behavior_impl.defined_at]
    exact defined_at_of_invoke A m w (by rw [hA]; rfl)

/-- C2 at `(plainA, contF)` and the tuple `5`: `plainA` answers `10`, which `contF`
declines. -/
theorem C2_composition_law_witness :
    ∃ d, (behavior.mk (some sample.plainA)).add_continuation sample.contF =
        .ok { m_impl := some d } ∧
      d.invoke 5 [] = (none, [1, 2]) ∧
      (d.invoke_mut 5 []).1.1 = none ∧ (d.invoke_mut 5 []).2 = [1, 2] ∧
      d.defined_at 5 [] = true :=
  C2_composition_law sample.plainA sample.contF 5 10 [] [1] [1, 2] rfl rfl

/-- C7: copy preserves composition.  For the decorator `d` built from `(f, A)` and a
timeout definition `tdef`, `d.copy(tdef)` is the decorator built from `f` and
`A.copy(tdef)`, and on every message its `invoke` (both overloads) and
`defined_at` give what those of `d` give. -/
theorem C7_copy_preserves_composition {σ Msg Dur : Type} (A d : behavior_impl σ Msg Dur)
    (f : partial_function σ Msg) (tdef : generic_timeout_definition σ Dur)
    (hd : continuation_decorator.create f (some A) = .ok d) :
    ∃ A1 d1, A.copy tdef = .ok A1 ∧ d.copy tdef = .ok d1 ∧
      continuation_decorator.create f (some A1) = .ok d1 ∧
      (∀ m w, d1.invoke m w = d.invoke m w) ∧
      (∀ m w, d1.invoke_mut m w = d.invoke_mut m w) ∧
      (∀ m w, d1.defined_at m w = d.defined_at m w) := by
  have hd1 := create_some_inv hd
  subst hd1
  obtain ⟨A1, h1, hm, hc, hdef⟩ := copy_preserves A tdef
  refine ⟨A1, .continuation_decorator A1.timeout f A1, h1, ?_, rfl, ?_, ?_, ?_⟩
  · simp only [behavior_impl.copy, h1, create_some]
  · intro m w; simp only [behavior_impl.invoke, hc]
  · intro m w; simp only [behavior_impl.invoke_mut, hm]
  · intro m w; simp only [behavior_impl.defined_at, hdef]

/-- C7 at the decorator `(contF, plainA)` and the timeout definition `tdef7`. -/
theorem C7_copy_preserves_composition_witness :
    ∃ A1 d1, sample.plainA.copy sample.tdef7 = .ok A1 ∧
      sample.decFA.copy sample.tdef7 = .ok d1 ∧
      continuation_decorator.create sample.contF (some A1) = .ok d1 ∧
      (∀ m w, d1.invoke m w = sample.decFA.invoke m w) ∧
      (∀ m w, d1.invoke_mut m w = sample.decFA.invoke_mut m w) ∧
      (∀ m w, d1.defined_at m w = sample.decFA.defined_at m w) :=
  C7_copy_preserves_composition sample.plainA sample.decFA sample.contF sample.tdef7 rfl

/-- C8: chaining preserves declination.  For a behavior `A` and continuations
`fs = f1..fn` added one after another, `invoke(m)` on the chain is the iterated
optional bind `A.invoke(m) >>= f1 >>= ... >>= fn` (the mutable overload gives
the same reply and world); once a link declines the chain declines in the world
reached there, so no later continuation runs; and a three-link chain yields an
output only if all three links match in turn. -/
theorem C8_chain_is_iterated_bind {σ Msg Dur : Type} (A : behavior_impl σ Msg Dur)
    (fs : List (partial_function σ Msg)) :
    ∃ d, (behavior.mk (some A)).add_continuations fs = .ok { m_impl := some d } ∧
      (∀ m w, d.invoke m w = fs.foldl optional_bind (A.invoke m) w) ∧
      (∀ m w, ((d.invoke_mut m w).1.1, (d.invoke_mut m w).2) =
        fs.foldl optional_bind (A.invoke m) w) ∧
      (∀ pre post m w w1, fs = pre ++ post →
        pre.foldl optional_bind (A.invoke m) w = (none, w1) → d.invoke m w = (none, w1)) ∧
      (∀ B C, fs = [B, C] → ∀ m w out w3, d.invoke m w = (some out, w3) →
        ∃ r1 w1 r2 w2, A.invoke m w = (some r1, w1) ∧ B r1 w1 = (some r2, w2) ∧
          C r2 w2 = (some out, w3)) := by
  obtain ⟨d, hd, hinv, _⟩ := add_continuations_some A fs
  refine ⟨d, hd, fun m w => by rw [hinv], ?_, ?_, ?_⟩
  · intro m w
    rw [← invoke_eq_invoke_mut, hinv]
  · intro pre post m w w1 hfs hpre
    rw [hinv, hfs, List.foldl_append]
    exact foldl_optional_bind_none post _ w w1 hpre
  · intro B C hfs m w out w3 hout
    rw [hinv, hfs] at hout
    simp only [List.foldl_cons, List.foldl_nil] at hout
    rw [optional_bind_eq, optional_bind_eq] at hout
    rcases hA : A.invoke m w with ⟨_ | r1, w1⟩
    · rw [hA] at hout; simp at hout
    · rw [hA] at hout
      simp only at hout
      rcases hB : B r1 w1 with ⟨_ | r2, w2⟩
      · rw [hB] at hout; simp at hout
      · rw [hB] at hout
        exact ⟨r1, w1, r2, w2, rfl, hB, hout⟩

/-- C8 at the chain `plainA`, `contF`, `contG`: the tuple `3` passes all three
links; on the tuple `5` the link `contF` declines and `contG` leaves no entry in
the log. -/
theorem C8_chain_is_iterated_bind_witness :
    ∃ d, (behavior.mk (some sample.plainA)).add_continuations [sample.contF, sample.contG] =
        .ok { m_impl := some d } ∧
      d.invoke 3 [] = (some 107, [1, 2, 3]) ∧ d.invoke 5 [] = (none, [1, 2]) := by
  obtain ⟨d, hd, hinv, _, _, _⟩ :=
    C8_chain_is_iterated_bind sample.plainA [sample.contF, sample.contG]
  refine ⟨d, hd, ?_, ?_⟩
  · rw [hinv]; simp only [List.foldl_cons, List.foldl_nil, optional_bind_eq]; rfl
  · rw [hinv]; simp only [List.foldl_cons, List.foldl_nil, optional_bind_eq]; rfl

/-! ## The scheduling policy: lemmas -/

namespace no_scheduling

variable {M W : Type}

theorem enqueue_world (s : system M W) (hdr : message_header) (msg : M) :
    (enqueue s hdr msg).world = s.world := by
  unfold enqueue single_reader_queue.enqueue
  by_cases hc : s.self.mailbox.is_closed = true
  · by_cases hv : hdr.id.valid = true <;> simp [hc, hv]
  · by_cases he : s.self.mailbox.items.isEmpty = true <;> simp [hc, he]

theorem fetch_messages_impl_drains (cb : mailbox_element M → W → W) (fuel : Nat)
    (s : system M W) (hfuel : s.self.mailbox.items.length < fuel) :
    fetch_messages_impl cb fuel s = .ok (drained cb s) := by
  obtain ⟨⟨⟨items, cl⟩, st, er, per⟩, tr, w⟩ := s
  induction items generalizing fuel w with
  | nil =>
    cases fuel with
    | zero => simp at hfuel
    | succ n => simp [fetch_messages_impl, single_reader_queue.try_pop, drained]
  | cons e rest ih =>
    cases fuel with
    | zero => simp at hfuel
    | succ n =>
      simp only [List.length_cons, Nat.add_lt_add_iff_right] at hfuel
      simp only [fetch_messages_impl, single_reader_queue.try_pop]
      rw [ih n (cb e w) hfuel]
      simp [drained]

theorem fetch_messages_impl_ok (cb : mailbox_element M → W → W) (fuel : Nat)
    (s s2 : system M W) (h : fetch_messages_impl cb fuel s = .ok s2) : s2 = drained cb s := by
  induction fuel generalizing s with
  | zero => simp [fetch_messages_impl] at h
  | succ n ih =>
    obtain ⟨⟨⟨items, cl⟩, st, er, per⟩, tr, w⟩ := s
    cases items with
    | nil =>
      simp only [fetch_messages_impl, single_reader_queue.try_pop] at h
      cases h; rfl
    | cons e rest =>
      simp only [fetch_messages_impl, single_reader_queue.try_pop] at h
      rw [ih _ h]
      simp [drained]

theorem try_fetch_loop_drains (cb : mailbox_element M → W → W) (fuel : Nat)
    (e : mailbox_element M) (s : system M W) (hfuel : s.self.mailbox.items.length < fuel) :
    try_fetch_loop cb fuel e s = .ok (drained cb { s with world := cb e s.world }) := by
  obtain ⟨⟨⟨items, cl⟩, st, er, per⟩, tr, w⟩ := s
  induction items generalizing fuel w e with
  | nil =>
    cases fuel with
    | zero => simp at hfuel
    | succ n => simp [try_fetch_loop, single_reader_queue.try_pop, drained]
  | cons e1 rest ih =>
    cases fuel with
    | zero => simp at hfuel
    | succ n =>
      simp only [List.length_cons, Nat.add_lt_add_iff_right] at hfuel
      simp only [try_fetch_loop, single_reader_queue.try_pop]
      rw [ih n e1 (cb e w) hfuel]
      simp [drained]

theorem deliver_world (s : system M W) (arrivals : List (message_header × M)) :
    (deliver s arrivals).world = s.world := by
  unfold deliver
  induction arrivals generalizing s with
  | nil => rfl
  | cons a rest ih => simp only [List.foldl_cons]; rw [ih, enqueue_world]

theorem wait_until_loop_world (abs_time : Nat) (ks : List (wakeup M)) (s : system M W)
    (b : Bool) (s1 : system M W) (ks1 : List (wakeup M))
    (h : wait_until_loop abs_time ks s = .ok (b, s1, ks1)) : s1.world = s.world := by
  induction ks generalizing s with
  | nil =>
    simp only [wait_until_loop] at h
    split at h
    · cases h
    · cases h; rfl
  | cons k ks ih =>
    simp only [wait_until_loop] at h
    split at h
    · cases k with
      | throws => cases h
      | returns arrivals status =>
        simp only at h
        split at h
        · cases h; rw [deliver_world]
        · rw [ih _ h, deliver_world]
    · cases h; rfl

theorem await_data_timed_loop_spec (abs_time : Nat) (fuel : Nat) (ks : List (wakeup M))
    (s : system M W) (b : Bool) (s1 : system M W) (ks1 : List (wakeup M))
    (h : await_data_timed_loop abs_time fuel ks s = .ok (b, s1, ks1)) :
    s1.world = s.world ∧ (b = true → s1.self.mailbox.empty = false) ∧
      (b = false → s.self.mailbox.empty = true) := by
  induction fuel generalizing ks s with
  | zero => simp [await_data_timed_loop] at h
  | succ n ih =>
    simp only [await_data_timed_loop] at h
    by_cases he : s.self.mailbox.empty = true
    · simp only [he, if_true] at h
      split at h
      · cases h
      · cases h
      · next s2 ks2 heq =>
        cases h
        have := wait_until_loop_world _ _ _ _ _ _ heq
        exact ⟨this, by simp, fun _ => he⟩
      · next s2 ks2 heq =>
        have hw := wait_until_loop_world _ _ _ _ _ _ heq
        obtain ⟨h1, h2, _⟩ := ih _ _ h
        exact ⟨by rw [h1]; exact hw, h2, fun _ => he⟩
    · simp only [he] at h
      cases h
      exact ⟨rfl, fun _ => by simpa using he, by simp⟩

theorem await_data_ready (fuel : Nat) (ks : List (wakeup M)) (s : system M W)
    (h : s.self.mailbox.empty = false) : await_data (fuel + 1) ks s = .ok (s, ks) := by
  simp [await_data, h]

theorem await_data_timed_spec (abs_time : Nat) (fuel : Nat) (ks : List (wakeup M))
    (s : system M W) (b : Bool) (s1 : system M W) (ks1 : List (wakeup M))
    (h : await_data_timed abs_time fuel ks s = .ok (b, s1, ks1)) :
    s1.world = s.world ∧ (b = true → s1.self.mailbox.items ≠ []) ∧
      (b = false → s.self.mailbox.items = []) := by
  unfold await_data_timed at h
  split at h
  · cases h
  · obtain ⟨h1, h2, h3⟩ := await_data_timed_loop_spec _ _ _ _ _ _ _ h
    refine ⟨h1, fun hb => ?_, fun hb => ?_⟩
    · have := h2 hb
      intro hnil
      simp [single_reader_queue.empty, hnil] at this
    · have := h3 hb
      simpa [single_reader_queue.empty] using this

end no_scheduling

/-! ## The scheduling policy: the claims -/

section policy_claims

open no_scheduling

variable {M W : Type}

/-- C3: `enqueue` makes one push, of the element built from `(hdr, msg)`, and what
else it does follows from the push outcome alone.  On first-of-empty the state
becomes ready and the trace grows by lock, set-state-ready, one notify, unlock
(so state change and notify happen with the mutex held); on an ordinary enqueue
the state and the trace stay as they are (no notify, no bounce).  The world and
the exit reasons are never touched. -/
theorem C3_enqueue_effects (s : system M W) (hdr : message_header) (msg : M) :
    (enqueue s hdr msg).self.mailbox =
        (s.self.mailbox.enqueue (new_mailbox_element hdr msg)).2 ∧
      (s.self.mailbox.closed = false →
        (enqueue s hdr msg).self.mailbox.items =
          s.self.mailbox.items ++ [new_mailbox_element hdr msg]) ∧
      (enqueue s hdr msg).world = s.world ∧
      (enqueue s hdr msg).self.exit_reason = s.self.exit_reason ∧
      (enqueue s hdr msg).self.planned_exit_reason = s.self.planned_exit_reason ∧
      ((s.self.mailbox.enqueue (new_mailbox_element hdr msg)).1 = .first_enqueued →
        (enqueue s hdr msg).self.state = .ready ∧
        (enqueue s hdr msg).trace =
          s.trace ++ [.lock, .set_state .ready, .notify_one, .unlock]) ∧
      ((s.self.mailbox.enqueue (new_mailbox_element hdr msg)).1 = .enqueued →
        (enqueue s hdr msg).self.state = s.self.state ∧
        (enqueue s hdr msg).trace = s.trace) := by
  unfold enqueue single_reader_queue.enqueue single_reader_queue.closed
  by_cases hc : s.self.mailbox.is_closed = true
  · by_cases hv : hdr.id.valid = true <;> simp [hc, hv]
  · by_cases he : s.self.mailbox.items.isEmpty = true
    · have : s.self.mailbox.items = [] := List.isEmpty_iff.mp he
      simp [hc, he, this]
    · simp [hc, he]

/-- C3 at the idle actor: the push is first-of-empty. -/
theorem C3_enqueue_effects_witness :
    (enqueue sample.idle (sample.plain_hdr 1) 10).self.state = .ready ∧
      (enqueue sample.idle (sample.plain_hdr 1) 10).trace =
        [.lock, .set_state .ready, .notify_one, .unlock] ∧
      (enqueue (enqueue sample.idle (sample.plain_hdr 1) 10) (sample.plain_hdr 1) 20).trace =
        (enqueue sample.idle (sample.plain_hdr 1) 10).trace :=
  ⟨((C3_enqueue_effects sample.idle (sample.plain_hdr 1) 10).2.2.2.2.2.1 rfl).1,
   ((C3_enqueue_effects sample.idle (sample.plain_hdr 1) 10).2.2.2.2.2.1 rfl).2,
   ((C3_enqueue_effects (enqueue sample.idle (sample.plain_hdr 1) 10)
      (sample.plain_hdr 1) 20).2.2.2.2.2.2 rfl).2⟩

/-- C4: bounce-on-close.  When the push reports queue-is-closed, the trace grows by
exactly one bounce, made with the actor's exit reason for the header's sender
and the header's correlation id, if and only if that id is valid; with an id
that is not valid the trace does not grow.  In both cases the state stays as it
is, no notify is issued, and the mailbox is unchanged. -/
theorem C4_bounce_on_close (s : system M W) (hdr : message_header) (msg : M)
    (hclosed : (s.self.mailbox.enqueue (new_mailbox_element hdr msg)).1 = .queue_closed) :
    (enqueue s hdr msg).trace =
        s.trace ++ (if hdr.id.valid then [.bounce s.self.exit_reason hdr.sender hdr.id] else []) ∧
      (hdr.id.valid = true ↔
        (enqueue s hdr msg).trace = s.trace ++ [.bounce s.self.exit_reason hdr.sender hdr.id]) ∧
      (hdr.id.valid = false → (enqueue s hdr msg).trace = s.trace) ∧
      (enqueue s hdr msg).self.state = s.self.state ∧
      (enqueue s hdr msg).trace.count .notify_one = s.trace.count .notify_one ∧
      (enqueue s hdr msg).self.mailbox = s.self.mailbox := by
  unfold single_reader_queue.enqueue at hclosed
  by_cases hc : s.self.mailbox.is_closed = true
  · unfold enqueue single_reader_queue.enqueue
    by_cases hv : hdr.id.valid = true <;> simp [hc, hv]
  · exfalso
    by_cases he : s.self.mailbox.items.isEmpty = true <;> simp [hc, he] at hclosed

/-- C4 at an exited actor and a request with the valid id `9` from sender `4`. -/
theorem C4_bounce_on_close_witness :
    (enqueue sample.exited (sample.request_hdr 4 9) 7).trace =
        [.bounce (.other 3) 4 { value := 9, valid := true }] ∧
      (enqueue sample.exited (sample.request_hdr 4 9) 7).self.state = .other 0 :=
  ⟨(C4_bounce_on_close sample.exited (sample.request_hdr 4 9) 7 rfl).1,
   (C4_bounce_on_close sample.exited (sample.request_hdr 4 9) 7 rfl).2.2.2.1⟩

/-- C5: with enough fuel for the elements at hand, `try_fetch_messages` returns
`true` exactly when the mailbox is non-empty, leaves the mailbox empty, and has
run the callback once per element, front element first; on an empty mailbox it
returns `false` and the system is as before (the callback did not run). -/
theorem C5_try_fetch_messages (cb : mailbox_element M → W → W) (fuel : Nat)
    (s : system M W) (hfuel : s.self.mailbox.items.length ≤ fuel) :
    try_fetch_messages cb fuel s = .ok (!s.self.mailbox.items.isEmpty, drained cb s) ∧
      (drained cb s).self.mailbox.items = [] ∧
      (drained cb s).world = s.self.mailbox.items.foldl (fun w e => cb e w) s.world ∧
      (s.self.mailbox.items = [] →
        try_fetch_messages cb fuel s = .ok (false, s)) := by
  obtain ⟨⟨⟨items, cl⟩, st, er, per⟩, tr, w⟩ := s
  cases items with
  | nil => simp [try_fetch_messages, single_reader_queue.try_pop, drained]
  | cons e rest =>
    simp only [List.length_cons] at hfuel
    simp only [try_fetch_messages, single_reader_queue.try_pop]
    rw [try_fetch_loop_drains cb fuel e _ (by simpa using hfuel)]
    simp [drained]

/-- C5 at the mailbox holding `10`, `20`, `30`. -/
theorem C5_try_fetch_messages_witness :
    try_fetch_messages sample.record 3 sample.loaded =
        .ok (true, drained sample.record sample.loaded) ∧
      (drained sample.record sample.loaded).world = [10, 20, 30] :=
  ⟨(C5_try_fetch_messages sample.record 3 sample.loaded (by decide)).1,
   (C5_try_fetch_messages sample.record 3 sample.loaded (by decide)).2.2.1⟩

/-- C6 (as amended): in a round of the worker loop that finds data, the reason passed
to `cleanup` is the planned exit reason read back after the step: on `done` the
worker first calls the setter with `normal`, without looking at the reason
planned so far, and `per` is what the getter gives after that call.  So on
`done` it is `normal` for a setter that stores its argument, it is the reason
planned so far when the setter keeps it, and without `done` it is the reason
planned so far. -/
theorem C6_cleanup_reason_after_resume (h : actor_hooks M W) (fuel : Nat)
    (ks : List (wakeup M)) (s : system M W) (rr : resume_result) (a2 : actor M) (w2 : W)
    (per : exit_reason)
    (hne : s.self.mailbox.empty = false)
    (hres : h.resume s.self s.world = (rr, a2, w2))
    (hper : (if rr = .done then h.set_planned_exit_reason .normal a2
      else a2).planned_exit_reason = per)
    (hex : per ≠ .not_exited) :
    worker_loop h (fuel + 1) ks s =
        .ok ({ self :=
                (h.cleanup per (if rr = .done then h.set_planned_exit_reason .normal a2
                  else a2) w2).1
               trace := s.trace ++ [.resume, .cleanup per]
               world :=
                (h.cleanup per (if rr = .done then h.set_planned_exit_reason .normal a2
                  else a2) w2).2 }, ks) ∧
      (rr = .done → (∀ r a, (h.set_planned_exit_reason r a).planned_exit_reason = r) →
        per = .normal) ∧
      (rr = .done →
        (h.set_planned_exit_reason .normal a2).planned_exit_reason = a2.planned_exit_reason →
        per = a2.planned_exit_reason) ∧
      (rr = .resume_later → per = a2.planned_exit_reason) := by
  refine ⟨?_, ?_, ?_, ?_⟩
  · unfold worker_loop
    rw [await_data_ready _ _ _ hne]
    simp only [hres]
    cases rr
    · simp only [reduceCtorEq, if_false] at hper ⊢
      simp [hper, hex]
    · simp only [if_true] at hper ⊢
      simp [hper, hex]
  · intro hd hstore
    subst hd
    simp only [if_true] at hper
    rw [← hper, hstore]
  · intro hd hkeep
    subst hd
    simp only [if_true] at hper
    rw [← hper, hkeep]
  · intro hl
    subst hl
    simp only [reduceCtorEq, if_false] at hper
    exact hper.symm

/-- C6 (as amended) at an actor that plans `other 7` and asks to be resumed later. -/
theorem C6_cleanup_reason_after_resume_witness :
    ∃ s1, worker_loop sample.yielding 1 [] sample.loaded = .ok (s1, []) ∧
      s1.trace =
        [.lock, .set_state .ready, .notify_one, .unlock, .resume, .cleanup (.other 7)] :=
  ⟨_, (C6_cleanup_reason_after_resume sample.yielding 0 [] sample.loaded .resume_later
    (sample.yielding.resume sample.loaded.self sample.loaded.world).2.1 [] (.other 7)
    rfl rfl rfl (by decide)).1, rfl⟩

/-- C6 as stated fails: the actor plans `other 7` during a resume step that reports
`done`; its setter stores `normal`, and `cleanup` is called with `normal`. -/
theorem C6_counterexample :
    (sample.quitting.resume sample.loaded.self sample.loaded.world).1 = .done ∧
      (sample.quitting.resume sample.loaded.self
        sample.loaded.world).2.1.planned_exit_reason = .other 7 ∧
      ∃ s1, worker_loop sample.quitting 1 [] sample.loaded = .ok (s1, []) ∧
        s1.trace = [.lock, .set_state .ready, .notify_one, .unlock, .resume, .cleanup .normal] ∧
        event.cleanup (.other 7) ∉ s1.trace := by
  refine ⟨rfl, rfl, _, rfl, rfl, ?_⟩
  decide

/-- C9: the timed `fetch_messages` returns `no_message` exactly when the timed
`await_data` returns `false`, with the system as `await_data` left it; then the
world is the one at the call (the callback did not run) and the mailbox was
empty at the call (nothing was there to pop).  When `await_data` returns `true`
and the fuel covers the elements at hand, it returns `success` with the mailbox
drained, the callback run once per element, front element first.  A returned
value other than `no_message` is `success`, and then at least one element was
drained. -/
theorem C9_timed_fetch_messages (cb : mailbox_element M → W → W) (abs_time fuel : Nat)
    (ks : List (wakeup M)) (s : system M W) :
    (∀ s2 ks2, fetch_messages_timed cb abs_time fuel ks s = .ok (.no_message, s2, ks2) ↔
        await_data_timed abs_time fuel ks s = .ok (false, s2, ks2)) ∧
      (∀ s1 ks1, await_data_timed abs_time fuel ks s = .ok (false, s1, ks1) →
        s1.world = s.world ∧ s.self.mailbox.items = []) ∧
      (∀ s1 ks1, await_data_timed abs_time fuel ks s = .ok (true, s1, ks1) →
        s1.self.mailbox.items.length < fuel →
        fetch_messages_timed cb abs_time fuel ks s = .ok (.success, drained cb s1, ks1) ∧
          (drained cb s1).world =
            s1.self.mailbox.items.foldl (fun w e => cb e w) s.world) ∧
      (∀ r s2 ks2, fetch_messages_timed cb abs_time fuel ks s = .ok (r, s2, ks2) →
        r ≠ .no_message →
        r = .success ∧ ∃ s1, await_data_timed abs_time fuel ks s = .ok (true, s1, ks2) ∧
          s1.self.mailbox.items ≠ [] ∧ s2 = drained cb s1) := by
  refine ⟨?_, ?_, ?_, ?_⟩
  · intro s2 ks2
    unfold fetch_messages_timed
    rcases hA : await_data_timed abs_time fuel ks s with e | ⟨b, s1, ks1⟩
    · simp
    · cases b
      · simp
      · simp only
        rcases hF : fetch_messages_impl cb fuel s1 with e | s3 <;> simp
  · intro s1 ks1 hA
    obtain ⟨h1, _, h3⟩ := await_data_timed_spec _ _ _ _ _ _ _ hA
    exact ⟨h1, h3 rfl⟩
  · intro s1 ks1 hA hfuel
    obtain ⟨h1, _, _⟩ := await_data_timed_spec _ _ _ _ _ _ _ hA
    refine ⟨?_, ?_⟩
    · simp only [fetch_messages_timed, hA, fetch_messages_impl_drains cb fuel s1 hfuel]
    · simp [drained, h1]
  · intro r s2 ks2 hF hr
    unfold fetch_messages_timed at hF
    rcases hA : await_data_timed abs_time fuel ks s with e | ⟨b, s1, ks1⟩
    · rw [hA] at hF; cases hF
    · rw [hA] at hF
      cases b
      · simp only at hF
        cases hF
        exact absurd rfl hr
      · simp only at hF
        rcases hI : fetch_messages_impl cb fuel s1 with e | s3
        · rw [hI] at hF; cases hF
        · rw [hI] at hF
          cases hF
          obtain ⟨_, h2, _⟩ := await_data_timed_spec _ _ _ _ _ _ _ hA
          exact ⟨rfl, s1, rfl, h2 rfl, fetch_messages_impl_ok cb fuel s1 s2 hI⟩

/-- C9 at the idle actor whose only wake-up is the timeout, and at the mailbox
holding three elements. -/
theorem C9_timed_fetch_messages_witness :
    fetch_messages_timed sample.record 99 3 [.returns [] .timeout] sample.idle =
        .ok (.no_message,
          { sample.idle with trace := [.lock, .wait_until 99, .unlock] }, []) ∧
      fetch_messages_timed sample.record 99 4 [] sample.loaded =
        .ok (.success, drained sample.record sample.loaded, []) :=
  ⟨((C9_timed_fetch_messages sample.record 99 3 [.returns [] .timeout] sample.idle).1
      { sample.idle with trace := [.lock, .wait_until 99, .unlock] } []).mpr rfl,
   ((C9_timed_fetch_messages sample.record 99 4 [] sample.loaded).2.2.1
      sample.loaded [] rfl (by decide)).1⟩

/-- C10 (as amended): from an idle actor (state blocked, empty open mailbox) three
`enqueue` calls give one notify, on the first `enqueue` only, and leave the
three elements in the mailbox.  The two calls that make up the body of the
blocking `fetch_messages` then do this: `await_data` returns without a wait, and
`fetch_messages_impl` hands all three elements to the callback in enqueue order
and leaves the mailbox empty.  The state is ready then, as the first `enqueue`
set it.  What `fetch_messages` does where its body ends is left out. -/
theorem C10_three_enqueues_then_fetch (s0 : system M W) (h1 h2 h3 : message_header)
    (m1 m2 m3 : M) (cb : mailbox_element M → W → W) (fuel : Nat) (ks : List (wakeup M))
    (hstate : s0.self.state = .blocked)
    (hmail : s0.self.mailbox = { items := [], is_closed := false }) (hfuel : 4 ≤ fuel) :
    ∃ s4, await_data fuel ks (enqueue (enqueue (enqueue s0 h1 m1) h2 m2) h3 m3) =
        .ok (enqueue (enqueue (enqueue s0 h1 m1) h2 m2) h3 m3, ks) ∧
      fetch_messages_impl cb fuel (enqueue (enqueue (enqueue s0 h1 m1) h2 m2) h3 m3) =
        .ok s4 ∧
      (enqueue s0 h1 m1).trace =
        s0.trace ++ [.lock, .set_state .ready, .notify_one, .unlock] ∧
      (enqueue (enqueue s0 h1 m1) h2 m2).trace = (enqueue s0 h1 m1).trace ∧
      (enqueue (enqueue (enqueue s0 h1 m1) h2 m2) h3 m3).trace = (enqueue s0 h1 m1).trace ∧
      (enqueue (enqueue (enqueue s0 h1 m1) h2 m2) h3 m3).self.mailbox.items =
        [new_mailbox_element h1 m1, new_mailbox_element h2 m2, new_mailbox_element h3 m3] ∧
      s4.trace = (enqueue s0 h1 m1).trace ∧
      s4.trace.count .notify_one = s0.trace.count .notify_one + 1 ∧
      s4.world =
        cb (new_mailbox_element h3 m3)
          (cb (new_mailbox_element h2 m2) (cb (new_mailbox_element h1 m1) s0.world)) ∧
      s4.self.mailbox.items = [] ∧
      s4.self.state = .ready := by
  refine ⟨drained cb (enqueue (enqueue (enqueue s0 h1 m1) h2 m2) h3 m3), ?_⟩
  obtain ⟨⟨mb, st, er, per⟩, tr, w⟩ := s0
  simp only at hstate hmail
  subst hstate hmail
  obtain ⟨n, rfl⟩ : ∃ n, fuel = n + 4 := ⟨fuel - 4, by omega⟩
  refine ⟨?_, ?_, ?_, ?_, ?_, ?_, ?_, ?_, ?_, ?_, ?_⟩
  · exact await_data_ready _ _ _ (by simp [enqueue, single_reader_queue.enqueue,
      single_reader_queue.empty])
  · exact fetch_messages_impl_drains _ _ _ (by simp [enqueue, single_reader_queue.enqueue])
  all_goals simp [enqueue, single_reader_queue.enqueue, drained, List.count_append]

/-- C10 (as amended) at the idle sample actor and the payloads `10`, `20`, `30`. -/
theorem C10_three_enqueues_then_fetch_witness :
    ∃ s4, fetch_messages_impl sample.record 4
        (enqueue (enqueue (enqueue sample.idle (sample.plain_hdr 1) 10)
          (sample.plain_hdr 1) 20) (sample.plain_hdr 1) 30) = .ok s4 ∧
      s4.world = [10, 20, 30] ∧ s4.self.state = .ready := by
  obtain ⟨s4, _, h2, _, _, _, _, _, _, h9, _, h11⟩ :=
    C10_three_enqueues_then_fetch sample.idle (sample.plain_hdr 1) (sample.plain_hdr 1)
      (sample.plain_hdr 1) 10 20 30 sample.record 4 [] rfl rfl (by decide)
  exact ⟨s4, h2, h9, h11⟩

/-- C10 as stated fails: the idle actor is blocked; after the three `enqueue` calls its
state is ready, and when `await_data` and `fetch_messages_impl` have delivered
the three elements and the mailbox is empty again, the state is ready, not
blocked. -/
theorem C10_counterexample :
    sample.idle.self.state = .blocked ∧ sample.idle.self.mailbox.items = [] ∧
      sample.loaded.self.state = .ready ∧
      await_data 4 [] sample.loaded = .ok (sample.loaded, []) ∧
      ∃ s4, fetch_messages_impl sample.record 4 sample.loaded = .ok s4 ∧
        s4.world = [10, 20, 30] ∧ s4.self.mailbox.items = [] ∧
        s4.trace.count .notify_one = 1 ∧ s4.self.state ≠ .blocked := by
  refine ⟨rfl, rfl, rfl, rfl, _, rfl, rfl, rfl, ?_, ?_⟩
  · decide
  · decide

end policy_claims

/-! ## Behaviors: domain, timeout and null pointers -/

section link_lemmas

variable {σ Msg Dur : Type}

theorem defined_at_innermost (a : behavior_impl σ Msg Dur) (m : Msg) (w : σ) :
    a.defined_at m w = a.innermost.defined_at m w := by
  induction a with
  | plain b => rfl
  | continuation_decorator t f a ih => simpa [behavior_impl.defined_at, behavior_impl.innermost] using ih

theorem handle_timeout_innermost (a : behavior_impl σ Msg Dur) (w : σ) :
    a.handle_timeout w = a.innermost.handle_timeout w := by
  induction a with
  | plain b => rfl
  | continuation_decorator t f a ih =>
    simpa [behavior_impl.handle_timeout, behavior_impl.innermost] using ih

theorem add_continuations_links (a : behavior_impl σ Msg Dur)
    (fs : List (partial_function σ Msg)) :
    ∃ d, (behavior.mk (some a)).add_continuations fs = .ok { m_impl := some d } ∧
      d.innermost = a.innermost ∧ d.timeout = a.timeout := by
  induction fs generalizing a with
  | nil => exact ⟨a, rfl, rfl, rfl⟩
  | cons f fs ih =>
    obtain ⟨d, hd, hin, ht⟩ := ih (.continuation_decorator a.timeout f a)
    refine ⟨d, ?_, ?_, ?_⟩
    · simpa [behavior.add_continuations, behavior.add_continuation, create_some] using hd
    · rw [hin]; rfl
    · rw [ht]; rfl

theorem copy_timeout (a a1 : behavior_impl σ Msg Dur) (tdef : generic_timeout_definition σ Dur)
    (h : a.copy tdef = .ok a1) : a1.timeout = tdef.timeout := by
  induction a generalizing a1 with
  | plain b =>
    simp only [behavior_impl.copy] at h
    cases h; rfl
  | continuation_decorator t f a ih =>
    simp only [behavior_impl.copy] at h
    rcases hc : a.copy tdef with e | p
    · rw [hc] at h; cases h
    · rw [hc] at h
      simp only [create_some] at h
      cases h
      exact ih p hc

end link_lemmas

/-- C11: `defined_at` on the decorator built from `(f, A)` is `A.defined_at`, hence the
same for any two continuations `f` and `g`: the continuation has no part in it.
For a chain of any length over `A`, `defined_at` is that of `A`, and so that of
the innermost plain Behavior. -/
theorem C11_defined_at_ignores_continuation {σ Msg Dur : Type}
    (A dF dG : behavior_impl σ Msg Dur) (f g : partial_function σ Msg) (m : Msg) (w : σ)
    (hF : continuation_decorator.create f (some A) = .ok dF)
    (hG : continuation_decorator.create g (some A) = .ok dG) :
    dF.defined_at m w = A.defined_at m w ∧ dG.defined_at m w = A.defined_at m w ∧
      dF.defined_at m w = dG.defined_at m w ∧
      (∀ fs : List (partial_function σ Msg),
        ∃ d, (behavior.mk (some A)).add_continuations fs = .ok { m_impl := some d } ∧
          d.defined_at m w = A.defined_at m w ∧
          d.defined_at m w = A.innermost.defined_at m w) := by
  have h1 := create_some_inv hF
  have h2 := create_some_inv hG
  subst h1 h2
  refine ⟨rfl, rfl, rfl, fun fs => ?_⟩
  obtain ⟨d, hd, hin, _⟩ := add_continuations_links A fs
  refine ⟨d, hd, ?_, ?_⟩
  · rw [defined_at_innermost d, hin, ← defined_at_innermost A]
  · rw [defined_at_innermost d, hin]

/-- C11 at `plainA` with the continuations `contF` and `contG`, on the tuple `5`, whose
result `contF` declines and `contG` accepts. -/
theorem C11_defined_at_ignores_continuation_witness :
    sample.decFA.defined_at 5 [] = true ∧
      (behavior_impl.continuation_decorator 5 sample.contG sample.plainA).defined_at 5 [] =
        true ∧
      sample.decFA.defined_at 0 [] = false :=
  ⟨(C11_defined_at_ignores_continuation sample.plainA sample.decFA
      (.continuation_decorator 5 sample.contG sample.plainA) sample.contF sample.contG 5 []
      rfl rfl).1,
   (C11_defined_at_ignores_continuation sample.plainA sample.decFA
      (.continuation_decorator 5 sample.contG sample.plainA) sample.contF sample.contG 5 []
      rfl rfl).2.1,
   (C11_defined_at_ignores_continuation sample.plainA sample.decFA
      (.continuation_decorator 5 sample.contG sample.plainA) sample.contF sample.contG 0 []
      rfl rfl).1⟩

/-- C12: `handle_timeout` on the decorator built from `(f, A)` leaves the world that
one run of `A`'s timeout handler leaves, whatever `f` is: the handler of `A`
runs once and `f` does not run.  For a chain of any length over `A` the handler
that runs is the timeout callback of the innermost plain Behavior. -/
theorem C12_handle_timeout_forwards {σ Msg Dur : Type} (A d : behavior_impl σ Msg Dur)
    (f : partial_function σ Msg) (w : σ)
    (hd : continuation_decorator.create f (some A) = .ok d) :
    d.handle_timeout w = A.handle_timeout w ∧
      (∀ fs : List (partial_function σ Msg),
        ∃ c, (behavior.mk (some A)).add_continuations fs = .ok { m_impl := some c } ∧
          c.handle_timeout w = A.handle_timeout w ∧
          c.handle_timeout w = A.innermost.tdef.handler w) := by
  have h1 := create_some_inv hd
  subst h1
  refine ⟨rfl, fun fs => ?_⟩
  obtain ⟨c, hc, hin, _⟩ := add_continuations_links A fs
  refine ⟨c, hc, ?_, ?_⟩
  · rw [handle_timeout_innermost c, hin, ← handle_timeout_innermost A]
  · rw [handle_timeout_innermost c, hin]; rfl

/-- C12 at `(contF, plainA)`: the log holds the entry `9` of `plainA`'s timeout
callback once, and no entry `2` of `contF`. -/
theorem C12_handle_timeout_forwards_witness :
    sample.decFA.handle_timeout [] = [9] :=
  (C12_handle_timeout_forwards sample.plainA sample.decFA sample.contF [] rfl).1

/-- C17 fails on the code: with a null pointer the constructor reads `ptr->timeout()`
for the base class before its body reaches `CPPA_REQUIRE(m_decorated != nullptr)`,
so the call ends in a null dereference, not in the failed check; the same holds
through `add_continuation` on a behavior whose `m_impl` is null. -/
theorem C17_null_pointer_is_dereferenced :
    (continuation_decorator.create sample.contF
        (none : Option (behavior_impl sample.Log Nat Nat)) = .error .null_dereference) ∧
      ((behavior.mk (none : Option (behavior_impl sample.Log Nat Nat))).add_continuation
          sample.contF = .error .null_dereference) ∧
      continuation_decorator.create sample.contF
        (none : Option (behavior_impl sample.Log Nat Nat)) ≠ .error .requirement_failed := by
  refine ⟨rfl, rfl, ?_⟩
  intro h
  cases h

/-- C19: the decorator built from `(f, A)` has the timeout of `A`; for every timeout
definition `tdef` the copy of the decorator has the timeout of the copy of `A`
(which is the one of `tdef`); and a behavior with continuations added, one or
many, has the timeout of the behavior it started from. -/
theorem C19_decorator_keeps_timeout {σ Msg Dur : Type} (A d : behavior_impl σ Msg Dur)
    (f : partial_function σ Msg)
    (hd : continuation_decorator.create f (some A) = .ok d) :
    d.timeout = A.timeout ∧
      (∀ tdef : generic_timeout_definition σ Dur,
        ∃ A1 d1, A.copy tdef = .ok A1 ∧ d.copy tdef = .ok d1 ∧
          d1.timeout = A1.timeout ∧ d1.timeout = tdef.timeout) ∧
      (behavior.mk (some A)).add_continuation f = .ok { m_impl := some d } ∧
      (∀ fs : List (partial_function σ Msg),
        ∃ c, (behavior.mk (some A)).add_continuations fs = .ok { m_impl := some c } ∧
          c.timeout = A.timeout) := by
  have h1 := create_some_inv hd
  subst h1
  refine ⟨rfl, fun tdef => ?_, rfl, fun fs => ?_⟩
  · obtain ⟨A1, hA1, _⟩ := copy_preserves A tdef
    refine ⟨A1, .continuation_decorator A1.timeout f A1, hA1, ?_, rfl, ?_⟩
    · simp only [behavior_impl.copy, hA1, create_some]
    · exact copy_timeout A A1 tdef hA1
  · obtain ⟨c, hc, _, ht⟩ := add_continuations_links A fs
    exact ⟨c, hc, ht⟩

/-- C19 at `(contF, plainA)`, whose timeout is `5`, and at its copy for `tdef7`. -/
theorem C19_decorator_keeps_timeout_witness :
    sample.decFA.timeout = sample.plainA.timeout ∧
      ∃ A1 d1, sample.plainA.copy sample.tdef7 = .ok A1 ∧
        sample.decFA.copy sample.tdef7 = .ok d1 ∧ d1.timeout = A1.timeout ∧ d1.timeout = 7 :=
  ⟨(C19_decorator_keeps_timeout sample.plainA sample.decFA sample.contF rfl).1,
   (C19_decorator_keeps_timeout sample.plainA sample.decFA sample.contF rfl).2.1 sample.tdef7⟩

/-! ## The scheduling policy: traces -/

namespace no_scheduling
variable {M W : Type}

theorem extends_by_refl (P : event → Bool) (s : system M W) : extends_by P s s :=
  ⟨[], by simp, by simp⟩

theorem extends_by_trans {P : event → Bool} {s s1 s2 : system M W}
    (h1 : extends_by P s s1) (h2 : extends_by P s1 s2) : extends_by P s s2 := by
  obtain ⟨m1, e1, p1⟩ := h1
  obtain ⟨m2, e2, p2⟩ := h2
  refine ⟨m1 ++ m2, by rw [e2, e1, List.append_assoc], ?_⟩
  intro e he
  rcases List.mem_append.mp he with h | h
  · exact p1 e h
  · exact p2 e h

theorem extends_by_mono {P Q : event → Bool} (hPQ : ∀ e, P e = true → Q e = true)
    {s s1 : system M W} (h : extends_by P s s1) : extends_by Q s s1 := by
  obtain ⟨m, e1, p1⟩ := h
  exact ⟨m, e1, fun e he => hPQ e (p1 e he)⟩

theorem extends_by_push (P : event → Bool) (s : system M W) (l : List event)
    (hl : ∀ e ∈ l, P e = true) : extends_by P s { s with trace := s.trace ++ l } :=
  ⟨l, rfl, hl⟩

theorem by_enqueue_await (e : event) (h : by_enqueue e = true) : by_await e = true := by
  cases e <;> simp_all [by_enqueue, by_await]

theorem by_await_round (e : event) (h : by_await e = true) : by_round e = true := by
  cases e <;> simp_all [by_enqueue, by_await, by_round]

theorem by_round_worker (e : event) (h : by_round e = true) : by_worker e = true := by
  cases e <;> simp_all [by_enqueue, by_await, by_round, by_worker]

theorem enqueue_extends (s : system M W) (hdr : message_header) (msg : M) :
    extends_by by_enqueue s (enqueue s hdr msg) := by
  unfold extends_by enqueue single_reader_queue.enqueue
  by_cases hc : s.self.mailbox.is_closed = true
  · by_cases hv : hdr.id.valid = true
    · exact ⟨[.bounce s.self.exit_reason hdr.sender hdr.id], by simp [hc, hv],
        by simp [by_enqueue]⟩
    · exact ⟨[], by simp [hc, hv], by simp⟩
  · by_cases he : s.self.mailbox.items.isEmpty = true
    · exact ⟨[.lock, .set_state .ready, .notify_one, .unlock], by simp [hc, he],
        by simp [by_enqueue]⟩
    · exact ⟨[], by simp [hc, he], by simp⟩

theorem deliver_extends (s : system M W) (arrivals : List (message_header × M)) :
    extends_by by_enqueue s (deliver s arrivals) := by
  unfold deliver
  induction arrivals generalizing s with
  | nil => exact extends_by_refl _ _
  | cons a rest ih =>
    simp only [List.foldl_cons]
    exact extends_by_trans (enqueue_extends s a.1 a.2) (ih _)

theorem wait_loop_extends (ks : List (wakeup M)) (s : system M W) :
    (∀ s1 ks1, wait_loop ks s = .ok (s1, ks1) → extends_by by_await s s1) ∧
      (∀ h s1, wait_loop ks s = .error (h, s1) → extends_by by_await s s1) := by
  induction ks generalizing s with
  | nil =>
    simp only [wait_loop]
    constructor
    · intro s1 ks1 h
      split at h
      · cases h
      · cases h; exact extends_by_refl _ _
    · intro hh s1 h
      split at h
      · cases h; exact extends_by_refl _ _
      · cases h
  | cons k ks ih =>
    simp only [wait_loop]
    by_cases he : s.self.mailbox.empty = true
    · simp only [he, if_true]
      cases k with
      | throws =>
        constructor
        · intro s1 ks1 h; cases h
        · intro hh s1 h
          cases h
          exact extends_by_push _ _ _ (by simp [by_await])
      | returns arrivals status =>
        have hstep : extends_by by_await s
            (deliver { s with trace := s.trace ++ [.wait] } arrivals) :=
          extends_by_trans (extends_by_push _ _ _ (by simp [by_await]))
            (extends_by_mono by_enqueue_await (deliver_extends _ _))
        obtain ⟨i1, i2⟩ := ih (deliver { s with trace := s.trace ++ [.wait] } arrivals)
        exact ⟨fun s1 ks1 h => extends_by_trans hstep (i1 s1 ks1 h),
          fun hh s1 h => extends_by_trans hstep (i2 hh s1 h)⟩
    · simp only [he]
      constructor
      · intro s1 ks1 h; cases h; exact extends_by_refl _ _
      · intro hh s1 h; cases h

theorem await_data_extends (fuel : Nat) (ks : List (wakeup M)) (s : system M W) :
    (∀ s1 ks1, await_data fuel ks s = .ok (s1, ks1) → extends_by by_await s s1) ∧
      (∀ h s1, await_data fuel ks s = .error (h, s1) → extends_by by_await s s1) := by
  induction fuel generalizing ks s with
  | zero =>
    simp only [await_data]
    exact ⟨fun s1 ks1 h => (by cases h), fun hh s1 h => (by cases h; exact extends_by_refl _ _)⟩
  | succ n ih =>
    simp only [await_data]
    by_cases he : s.self.mailbox.empty = true
    · simp only [he, if_true]
      have hlock : extends_by by_await s { s with trace := s.trace ++ [.lock] } :=
        extends_by_push _ _ _ (by simp [by_await, by_enqueue])
      obtain ⟨w1, w2⟩ := wait_loop_extends ks { s with trace := s.trace ++ [.lock] }
      rcases hw : wait_loop ks { s with trace := s.trace ++ [.lock] } with ⟨hh, s2⟩ | ⟨s2, ks2⟩
      · have h2 := extends_by_trans hlock (w2 hh s2 hw)
        cases hh
        all_goals
          refine ⟨fun s1 ks1 h => (by cases h), fun h3 s1 h => ?_⟩
          cases h
          first
            | exact h2
            | exact extends_by_trans h2 (extends_by_push _ _ _ (by simp [by_await, by_enqueue]))
      · have h2 := extends_by_trans hlock (w1 s2 ks2 hw)
        have h3 : extends_by by_await s { s2 with trace := s2.trace ++ [.unlock] } :=
          extends_by_trans h2 (extends_by_push _ _ _ (by simp [by_await, by_enqueue]))
        obtain ⟨i1, i2⟩ := ih ks2 { s2 with trace := s2.trace ++ [.unlock] }
        exact ⟨fun s1 ks1 h => extends_by_trans h3 (i1 s1 ks1 h),
          fun hh s1 h => extends_by_trans h3 (i2 hh s1 h)⟩
    · simp only [he]
      exact ⟨fun s1 ks1 h => (by cases h; exact extends_by_refl _ _), fun hh s1 h => (by cases h)⟩

theorem worker_loop_round (h : actor_hooks M W) (fuel : Nat) (ks ks1 : List (wakeup M))
    (s s1 : system M W) (hawait : await_data (fuel + 1) ks s = .ok (s1, ks1)) :
    worker_loop h (fuel + 1) ks s =
      if (resumed h s1).self.planned_exit_reason ≠ .not_exited then
        .ok (cleaned h (resumed h s1), ks1)
      else worker_loop h fuel ks1 (resumed h s1) := by
  rw [worker_loop, hawait]
  simp only [resumed, cleaned]
  by_cases hd : (h.resume s1.self s1.world).1 = .done
  · simp only [hd, if_true]
  · simp only [hd, if_false]

theorem resumed_extends (h : actor_hooks M W) (s1 : system M W) :
    extends_by by_round s1 (resumed h s1) :=
  ⟨[.resume], rfl, by simp [by_round]⟩

theorem worker_loop_spec (h : actor_hooks M W) (fuel : Nat) (ks : List (wakeup M))
    (s : system M W) :
    (∀ s2 ks2, worker_loop h fuel ks s = .ok (s2, ks2) →
        ∃ s1, extends_by by_round s s1 ∧
          (resumed h s1).self.planned_exit_reason ≠ .not_exited ∧
          s2 = cleaned h (resumed h s1)) ∧
      (∀ hh s2, worker_loop h fuel ks s = .error (hh, s2) → extends_by by_round s s2) := by
  induction fuel generalizing ks s with
  | zero =>
    simp only [worker_loop]
    exact ⟨fun s2 ks2 h2 => (by cases h2),
      fun hh s2 h2 => (by cases h2; exact extends_by_refl _ _)⟩
  | succ n ih =>
    obtain ⟨a1, a2⟩ := await_data_extends (n + 1) ks s
    rcases ha : await_data (n + 1) ks s with ⟨hh, s1⟩ | ⟨s1, ks1⟩
    · have hx := extends_by_mono by_await_round (a2 hh s1 ha)
      rw [worker_loop, ha]
      cases hh
      all_goals
        refine ⟨fun s2 ks2 h2 => (by cases h2), fun h3 s2 h2 => ?_⟩
        cases h2
        first
          | exact hx
          | exact extends_by_trans hx (extends_by_push _ _ _ (by simp [by_round]))
    · have hx := extends_by_mono by_await_round (a1 s1 ks1 ha)
      rw [worker_loop_round h n ks ks1 s s1 ha]
      by_cases hp : (resumed h s1).self.planned_exit_reason ≠ .not_exited
      · rw [if_pos hp]
        refine ⟨fun s2 ks2 h2 => ?_, fun hh s2 h2 => (by cases h2)⟩
        cases h2
        exact ⟨s1, hx, hp, rfl⟩
      · rw [if_neg hp]
        obtain ⟨i1, i2⟩ := ih ks1 (resumed h s1)
        have hy := extends_by_trans hx (resumed_extends h s1)
        refine ⟨fun s2 ks2 h2 => ?_, fun hh s2 h2 => extends_by_trans hy (i2 hh s2 h2)⟩
        obtain ⟨s1b, e1, e2, e3⟩ := i1 s2 ks2 h2
        exact ⟨s1b, extends_by_trans hy e1, e2, e3⟩

theorem by_round_not_cleanup (e : event) (h : by_round e = true) (r : exit_reason) :
    e ≠ .cleanup r := by
  intro he; subst he; simp [by_round, by_await, by_enqueue] at h

theorem by_worker_not_registry (e : event) (h : by_worker e = true) :
    e ≠ .inc_running ∧ e ≠ .dec_running := by
  constructor <;> intro he <;> subst he <;> simp [by_worker, by_round, by_await, by_enqueue] at h

theorem enqueue_open (s : system M W) (hdr : message_header) (msg : M)
    (h : s.self.mailbox.is_closed = false) :
    (enqueue s hdr msg).self.mailbox =
      { items := s.self.mailbox.items ++ [new_mailbox_element hdr msg], is_closed := false } := by
  unfold enqueue single_reader_queue.enqueue
  by_cases he : s.self.mailbox.items.isEmpty = true
  · have : s.self.mailbox.items = [] := List.isEmpty_iff.mp he
    simp [h, he, this]
  · simp [h, he]

theorem deliver_open (s : system M W) (arrivals : List (message_header × M))
    (h : s.self.mailbox.is_closed = false) :
    (deliver s arrivals).self.mailbox =
      { items := s.self.mailbox.items ++ arrivals.map (fun a => new_mailbox_element a.1 a.2),
        is_closed := false } := by
  unfold deliver
  induction arrivals generalizing s with
  | nil =>
    obtain ⟨⟨⟨items, cl⟩, st, er, per⟩, tr, w⟩ := s
    simp only at h
    simp [h]
  | cons a rest ih =>
    simp only [List.foldl_cons]
    rw [ih (enqueue s a.1 a.2) (by rw [enqueue_open s a.1 a.2 h]), enqueue_open s a.1 a.2 h]
    simp

theorem wait_until_loop_ready (abs_time : Nat) (ks : List (wakeup M)) (s : system M W)
    (h : s.self.mailbox.empty = false) : wait_until_loop abs_time ks s = .ok (true, s, ks) := by
  cases ks <;> simp [wait_until_loop, h]

theorem wait_until_loop_char (abs_time : Nat) (ks : List (wakeup M)) (s : system M W)
    (b : Bool) (s1 : system M W) (ks1 : List (wakeup M))
    (hopen : s.self.mailbox.is_closed = false) (hemp : s.self.mailbox.items = [])
    (h : wait_until_loop abs_time ks s = .ok (b, s1, ks1)) :
    ∃ pre arr st, ks = pre ++ .returns arr st :: ks1 ∧
      (∀ k ∈ pre, k = .returns [] .no_timeout) ∧
      ((b = false ∧ st = .timeout) ∨ (b = true ∧ st = .no_timeout ∧ arr ≠ [])) ∧
      s1.self.mailbox =
        { items := arr.map (fun a => new_mailbox_element a.1 a.2), is_closed := false } := by
  have he : s.self.mailbox.empty = true := by simp [single_reader_queue.empty, hemp]
  induction ks generalizing s with
  | nil => simp [wait_until_loop, he] at h
  | cons k ks ih =>
    simp only [wait_until_loop, he, if_true] at h
    cases k with
    | throws => cases h
    | returns arr st =>
      simp only at h
      have hd := deliver_open { s with trace := s.trace ++ [.wait_until abs_time] } arr hopen
      simp only [hemp, List.nil_append] at hd
      by_cases hst : st = .timeout
      · simp only [hst, if_true] at h
        cases h
        exact ⟨[], arr, .timeout, by simp [hst], by simp, Or.inl ⟨rfl, rfl⟩, hd⟩
      · simp only [hst, if_false] at h
        have hno : st = .no_timeout := by cases st <;> simp_all
        by_cases harr : arr = []
        · subst harr
          simp only [List.map_nil] at hd
          obtain ⟨pre, arr2, st2, e1, e2, e3, e4⟩ := ih _ (by rw [hd]) (by rw [hd])
            h (by simp [single_reader_queue.empty, hd])
          refine ⟨.returns [] st :: pre, arr2, st2, by simp [e1], ?_, e3, e4⟩
          intro k hk
          rcases List.mem_cons.mp hk with hk | hk
          · rw [hk, hno]
          · exact e2 k hk
        · have hne : (deliver { s with trace := s.trace ++ [.wait_until abs_time] }
              arr).self.mailbox.empty = false := by
            rw [hd]; simpa [single_reader_queue.empty] using harr
          rw [wait_until_loop_ready _ _ _ hne] at h
          cases h
          exact ⟨[], arr, st, by simp, by simp, Or.inr ⟨rfl, hno, harr⟩, hd⟩

theorem await_data_timed_loop_ready (abs_time fuel : Nat) (ks : List (wakeup M))
    (s : system M W) (h : s.self.mailbox.empty = false) :
    await_data_timed_loop abs_time (fuel + 1) ks s = .ok (true, s, ks) := by
  simp [await_data_timed_loop, h]

theorem await_data_timed_loop_char (abs_time fuel : Nat) (ks : List (wakeup M))
    (s : system M W) (b : Bool) (s1 : system M W) (ks1 : List (wakeup M))
    (hopen : s.self.mailbox.is_closed = false) (hemp : s.self.mailbox.items = [])
    (h : await_data_timed_loop abs_time fuel ks s = .ok (b, s1, ks1)) :
    ∃ pre arr st, ks = pre ++ .returns arr st :: ks1 ∧
      (∀ k ∈ pre, k = .returns [] .no_timeout) ∧
      ((b = false ∧ st = .timeout) ∨ (b = true ∧ st = .no_timeout ∧ arr ≠ [])) ∧
      s1.self.mailbox =
        { items := arr.map (fun a => new_mailbox_element a.1 a.2), is_closed := false } := by
  have he : s.self.mailbox.empty = true := by simp [single_reader_queue.empty, hemp]
  cases fuel with
  | zero => simp [await_data_timed_loop] at h
  | succ n =>
    simp only [await_data_timed_loop, he, if_true] at h
    rcases hw : wait_until_loop abs_time ks { s with trace := s.trace ++ [.lock] }
      with ⟨hh, s2⟩ | ⟨b2, s2, ks2⟩
    · rw [hw] at h; cases hh <;> cases h
    · rw [hw] at h
      obtain ⟨pre, arr, st, e1, e2, e3, e4⟩ :=
        wait_until_loop_char abs_time ks { s with trace := s.trace ++ [.lock] } b2 s2 ks2
          hopen hemp hw
      cases b2
      · simp only at h
        cases h
        exact ⟨pre, arr, st, e1, e2, e3, e4⟩
      · simp only at h
        rcases e3 with ⟨hb, _⟩ | ⟨_, hst, harr⟩
        · cases hb
        · have hne : ({ s2 with trace := s2.trace ++ [.unlock] } : system M W).self.mailbox.empty
              = false := by
            simp only [e4]
            simpa [single_reader_queue.empty] using harr
          cases n with
          | zero => simp [await_data_timed_loop] at h
          | succ m =>
            rw [await_data_timed_loop_ready _ _ _ _ hne] at h
            cases h
            exact ⟨pre, arr, st, e1, e2, Or.inr ⟨rfl, hst, harr⟩, e4⟩

theorem wait_until_loop_spurious (abs_time n : Nat) (ks : List (wakeup M)) (s : system M W)
    (hemp : s.self.mailbox.items = []) :
    wait_until_loop abs_time (List.replicate n (.returns [] .no_timeout) ++ ks) s =
      wait_until_loop abs_time ks
        { s with trace := s.trace ++ List.replicate n (.wait_until abs_time) } := by
  induction n generalizing s with
  | zero =>
    obtain ⟨a, tr, w⟩ := s
    simp
  | succ m ih =>
    have he : s.self.mailbox.empty = true := by simp [single_reader_queue.empty, hemp]
    simp only [List.replicate_succ, List.cons_append, wait_until_loop, he, if_true, deliver,
      List.foldl_nil, reduceCtorEq, if_false, List.append_eq]
    rw [ih { s with trace := s.trace ++ [.wait_until abs_time] } hemp]
    simp [List.append_assoc]

theorem wait_until_loop_extends (abs_time : Nat) (ks : List (wakeup M)) (s : system M W)
    (b : Bool) (s1 : system M W) (ks1 : List (wakeup M))
    (h : wait_until_loop abs_time ks s = .ok (b, s1, ks1)) :
    extends_by (by_timed_await abs_time) s s1 := by
  have hmono : ∀ e, by_enqueue e = true → by_timed_await abs_time e = true := by
    intro e he; cases e <;> simp_all [by_enqueue, by_timed_await]
  induction ks generalizing s with
  | nil =>
    simp only [wait_until_loop] at h
    split at h
    · cases h
    · cases h; exact extends_by_refl _ _
  | cons k ks ih =>
    simp only [wait_until_loop] at h
    split at h
    · cases k with
      | throws => cases h
      | returns arr st =>
        simp only at h
        have hstep : extends_by (by_timed_await abs_time) s
            (deliver { s with trace := s.trace ++ [.wait_until abs_time] } arr) :=
          extends_by_trans (extends_by_push _ _ _ (by simp [by_timed_await]))
            (extends_by_mono hmono (deliver_extends _ _))
        split at h
        · cases h; exact hstep
        · exact extends_by_trans hstep (ih _ h)
    · cases h; exact extends_by_refl _ _

theorem await_data_timed_loop_extends (abs_time fuel : Nat) (ks : List (wakeup M))
    (s : system M W) (b : Bool) (s1 : system M W) (ks1 : List (wakeup M))
    (h : await_data_timed_loop abs_time fuel ks s = .ok (b, s1, ks1)) :
    extends_by (by_timed_await abs_time) s s1 := by
  induction fuel generalizing ks s with
  | zero => simp [await_data_timed_loop] at h
  | succ n ih =>
    simp only [await_data_timed_loop] at h
    split at h
    · rcases hw : wait_until_loop abs_time ks { s with trace := s.trace ++ [.lock] }
        with ⟨hh, s2⟩ | ⟨b2, s2, ks2⟩
      · rw [hw] at h; cases hh <;> cases h
      · rw [hw] at h
        have h1 : extends_by (by_timed_await abs_time) s
            { s2 with trace := s2.trace ++ [.unlock] } :=
          extends_by_trans (extends_by_push _ _ _ (by simp [by_timed_await, by_enqueue]))
            (extends_by_trans (wait_until_loop_extends _ _ _ _ _ _ hw)
              (extends_by_push _ _ _ (by simp [by_timed_await, by_enqueue])))
        cases b2
        · simp only at h
          cases h; exact h1
        · simp only at h
          exact extends_by_trans h1 (ih _ _ h)
    · cases h; exact extends_by_refl _ _

end no_scheduling

/-! ## The scheduling policy: worker, registry and waits -/

section worker_claims
open no_scheduling
variable {M W : Type}

/-- C13: one round of the worker loop, entered with the system `s1` that `await_data`
left, runs the resume step once (one `resume` event, one application of the
actor's `resume`).  If the planned exit reason read after the step is not
`not_exited`, the loop returns in this round after one `cleanup` with that
reason; if it is `not_exited`, no `cleanup` is called and the loop goes on with
the next `await_data`.  So a run that returns has called `cleanup` once, as its
last event and with the planned reason of the actor it is handed, and a run
that has not returned has not called `cleanup`. -/
theorem C13_worker_loop_rounds (h : actor_hooks M W) (fuel : Nat)
    (ks ks1 : List (wakeup M)) (s s1 : system M W)
    (hawait : await_data (fuel + 1) ks s = .ok (s1, ks1)) :
    (resumed h s1).trace = s1.trace ++ [.resume] ∧
      ((resumed h s1).self.planned_exit_reason ≠ .not_exited →
        worker_loop h (fuel + 1) ks s = .ok (cleaned h (resumed h s1), ks1) ∧
          (cleaned h (resumed h s1)).trace =
            s1.trace ++ [.resume, .cleanup (resumed h s1).self.planned_exit_reason]) ∧
      ((resumed h s1).self.planned_exit_reason = .not_exited →
        worker_loop h (fuel + 1) ks s = worker_loop h fuel ks1 (resumed h s1)) ∧
      (∀ n ks0 s0 s2 ks2, worker_loop h n ks0 s0 = .ok (s2, ks2) →
        ∃ mid s3, s2 = cleaned h s3 ∧ s3.self.planned_exit_reason ≠ .not_exited ∧
          s2.trace = s0.trace ++ mid ++ [.resume, .cleanup s3.self.planned_exit_reason] ∧
          ∀ r, event.cleanup r ∉ mid) ∧
      (∀ n ks0 s0 hh s2, worker_loop h n ks0 s0 = .error (hh, s2) →
        ∃ mid, s2.trace = s0.trace ++ mid ∧ ∀ r, event.cleanup r ∉ mid) := by
  refine ⟨rfl, ?_, ?_, ?_, ?_⟩
  · intro hp
    rw [worker_loop_round h fuel ks ks1 s s1 hawait, if_pos hp]
    exact ⟨rfl, by simp [cleaned, resumed]⟩
  · intro hp
    rw [worker_loop_round h fuel ks ks1 s s1 hawait, if_neg (by simpa using hp)]
  · intro n ks0 s0 s2 ks2 hrun
    obtain ⟨s1b, ⟨mid, hmid, hall⟩, hp, hs2⟩ := (worker_loop_spec h n ks0 s0).1 s2 ks2 hrun
    refine ⟨mid, resumed h s1b, hs2, hp, ?_, ?_⟩
    · rw [hs2]
      simp [cleaned, resumed, hmid]
    · intro r hr
      exact by_round_not_cleanup _ (hall _ hr) r rfl
  · intro n ks0 s0 hh s2 hrun
    obtain ⟨mid, hmid, hall⟩ := (worker_loop_spec h n ks0 s0).2 hh s2 hrun
    exact ⟨mid, hmid, fun r hr => by_round_not_cleanup _ (hall _ hr) r rfl⟩

/-- C13 at the actor that takes one element per resume step from the mailbox holding
`10`, `20`, `30`: the first round plans no exit and the loop goes on; after the
third resume step the run is over, with one `cleanup`. -/
theorem C13_worker_loop_rounds_witness :
    worker_loop sample.draining 3 [] sample.loaded =
        worker_loop sample.draining 2 [] (resumed sample.draining sample.loaded) ∧
      ∃ s2, worker_loop sample.draining 3 [] sample.loaded = .ok (s2, []) ∧
        s2.trace = [.lock, .set_state .ready, .notify_one, .unlock,
          .resume, .resume, .resume, .cleanup .normal] ∧
        s2.world = [10, 20, 30] :=
  ⟨(C13_worker_loop_rounds sample.draining 2 [] [] sample.loaded sample.loaded rfl).2.2.1 rfl,
   _, rfl, rfl, rfl⟩

/-- The calls on the registry: `launch` adds one `inc_running` to the trace before
anything the worker does.  When the worker returns after `cleanup`, one
`dec_running` follows as the last event and the running count is back at its
value before `launch`.  In every other case, the exception out of `await_data`
included, `dec_running` is not called and the count is one above that value. -/
theorem launch_registry_calls (h : actor_hooks M W) (fuel : Nat) (ks : List (wakeup M))
    (s : system M W) (base : Int) :
    (∀ s2 ks2, launch h fuel ks s = .ok (s2, ks2) →
        ∃ mid, s2.trace = s.trace ++ [.inc_running] ++ mid ++ [.dec_running] ∧
          event.inc_running ∉ mid ∧ event.dec_running ∉ mid ∧
          running base s2.trace = running base s.trace) ∧
      (∀ hh s2, launch h fuel ks s = .error (hh, s2) →
        hh ≠ .exception ∧
        ∃ mid, s2.trace = s.trace ++ [.inc_running] ++ mid ∧
          event.inc_running ∉ mid ∧ event.dec_running ∉ mid ∧
          running base s2.trace = running base s.trace + 1) := by
  have key : ∀ s1 : system M W,
      extends_by by_worker { s with trace := s.trace ++ [.inc_running] } s1 →
      ∃ mid, s1.trace = s.trace ++ [.inc_running] ++ mid ∧
        event.inc_running ∉ mid ∧ event.dec_running ∉ mid := by
    intro s1 hx
    obtain ⟨mid, hmid, hall⟩ := hx
    exact ⟨mid, hmid, fun hm => (by_worker_not_registry _ (hall _ hm)).1 rfl,
      fun hm => (by_worker_not_registry _ (hall _ hm)).2 rfl⟩
  obtain ⟨w1, w2⟩ := worker_loop_spec h fuel ks { s with trace := s.trace ++ [.inc_running] }
  have wok : ∀ s1 ks1,
      worker_loop h fuel ks { s with trace := s.trace ++ [.inc_running] } = .ok (s1, ks1) →
      extends_by by_worker { s with trace := s.trace ++ [.inc_running] } s1 := by
    intro s1 ks1 hrun
    obtain ⟨s1b, hx, _, hs⟩ := w1 s1 ks1 hrun
    have h1 := extends_by_trans hx (resumed_extends h s1b)
    have h2 : extends_by by_worker (resumed h s1b) (cleaned h (resumed h s1b)) :=
      ⟨[.cleanup (resumed h s1b).self.planned_exit_reason], rfl, by simp [by_worker]⟩
    rw [hs]
    exact extends_by_trans (extends_by_mono by_round_worker h1) h2
  have werr : ∀ hh s1,
      worker_loop h fuel ks { s with trace := s.trace ++ [.inc_running] } = .error (hh, s1) →
      extends_by by_worker { s with trace := s.trace ++ [.inc_running] } s1 :=
    fun hh s1 hrun => extends_by_mono by_round_worker (w2 hh s1 hrun)
  have cnt : ∀ mid : List event, event.inc_running ∉ mid → event.dec_running ∉ mid →
      running base (s.trace ++ [.inc_running] ++ mid ++ [.dec_running]) = running base s.trace ∧
      running base (s.trace ++ [.inc_running] ++ mid) = running base s.trace + 1 := by
    intro mid hi hd
    have c1 : mid.count .inc_running = 0 := List.count_eq_zero.mpr hi
    have c2 : mid.count .dec_running = 0 := List.count_eq_zero.mpr hd
    simp only [running, List.count_append, c1, c2]
    simp
    constructor <;> ring
  refine ⟨?_, ?_⟩
  · intro s2 ks2 hl
    unfold launch at hl
    rcases hr : worker_loop h fuel ks { s with trace := s.trace ++ [.inc_running] }
      with ⟨hh, s1⟩ | ⟨s1, ks1⟩
    · rw [hr] at hl; cases hh <;> cases hl
    · rw [hr] at hl
      cases hl
      obtain ⟨mid, hmid, hi, hd⟩ := key _ (wok _ _ hr)
      exact ⟨mid, by simp [hmid], hi, hd, by simpa [hmid] using (cnt mid hi hd).1⟩
  · intro hh s2 hl
    unfold launch at hl
    rcases hr : worker_loop h fuel ks { s with trace := s.trace ++ [.inc_running] }
      with ⟨hh1, s1⟩ | ⟨s1, ks1⟩
    · rw [hr] at hl
      cases hh1 <;> cases hl
      all_goals
        obtain ⟨mid, hmid, hi, hd⟩ := key _ (werr _ _ hr)
        exact ⟨by decide, mid, hmid, hi, hd, by simpa [hmid] using (cnt mid hi hd).2⟩
    · rw [hr] at hl; cases hl

/-- C14 fails on the code: when the wait of an idle actor throws, the worker logs the
exception and throws it on, the run ends in `std::terminate`, and the trace has
the `inc_running` of `launch` but no `dec_running`, so the running count stays
one above its value before `launch`.  On the return after `cleanup` the guard
does call `dec_running`, as the last event. -/
theorem C14_exception_path_skips_dec_running :
    (∃ s2, launch sample.quitting 1 [.throws] sample.idle = .error (.terminated, s2) ∧
        s2.trace = [.inc_running, .lock, .wait, .unlock, .log_exception] ∧
        event.dec_running ∉ s2.trace ∧
        running 0 s2.trace = running 0 sample.idle.trace + 1) ∧
      (∃ s2, launch sample.quitting 1 [] sample.loaded = .ok (s2, []) ∧
        s2.trace.getLast? = some .dec_running ∧
        running 0 s2.trace = running 0 sample.loaded.trace) := by
  refine ⟨⟨_, rfl, rfl, ?_, ?_⟩, ⟨_, rfl, rfl, ?_⟩⟩
  · decide
  · decide
  · decide

/-- C15 fails on the code: on the mailbox holding `10`, `20`, `30` the call of the
blocking `fetch_messages` reaches the end of its body, which has no `return`
statement, so its behaviour is undefined and nothing the claim says of the call
is guaranteed.  The drain loop `fetch_messages_impl`, called on its own, does
what the claim says: one callback per element, front element first, and an
empty mailbox. -/
theorem C15_blocking_fetch_is_undefined :
    fetch_messages sample.record 4 [.throws] sample.loaded = none ∧
      await_data 4 [.throws] sample.loaded = .ok (sample.loaded, [.throws]) ∧
      fetch_messages_impl sample.record 4 sample.loaded =
        .ok (drained sample.record sample.loaded) ∧
      (drained sample.record sample.loaded).world = [10, 20, 30] ∧
      (drained sample.record sample.loaded).self.mailbox.items = [] :=
  ⟨rfl, rfl, rfl, rfl, rfl⟩

/-- C20 fails on the code: on the mailbox holding `10`, `20`, `30` the blocking
`fetch_messages` reaches the end of its body, which has no `return` statement,
so the call has no defined result, where `try_fetch_messages` returns `true`
and the timed `fetch_messages` returns `success`. -/
theorem C20_blocking_fetch_hands_back_no_value :
    fetch_messages sample.record 4 [] sample.loaded = none ∧
      try_fetch_messages sample.record 4 sample.loaded =
        .ok (true, drained sample.record sample.loaded) ∧
      fetch_messages_timed sample.record 99 4 [] sample.loaded =
        .ok (.success, drained sample.record sample.loaded, []) :=
  ⟨rfl, rfl, rfl⟩

/-- C16: the timed `await_data` on an open mailbox, with the waits given as a list of
wake-ups.  On a non-empty mailbox it returns `true` at once, without a wait.
Whenever it returns, `true` comes with a non-empty mailbox, and every
`wait_until` it made carries the deadline `abs_time`.  From an empty mailbox it
returns at the first wake-up that is not spurious (woken before the deadline
with the mailbox still empty): `false` when that wake-up reports the timeout,
`true` when it was woken before the deadline and data has arrived; any number
of spurious wake-ups before it changes neither result. -/
theorem C16_timed_await_data (abs_time fuel : Nat) (ks : List (wakeup M)) (s : system M W)
    (hopen : s.self.mailbox.closed = false) :
    (s.self.mailbox.items ≠ [] →
        await_data_timed abs_time (fuel + 1) ks s = .ok (true, s, ks)) ∧
      (∀ b s1 ks1, await_data_timed abs_time fuel ks s = .ok (b, s1, ks1) →
        (b = true → s1.self.mailbox.items ≠ []) ∧
        (b = false → s.self.mailbox.items = []) ∧
        (∃ mid, s1.trace = s.trace ++ mid ∧ ∀ t, event.wait_until t ∈ mid → t = abs_time) ∧
        (s.self.mailbox.items = [] →
          ∃ pre arr st, ks = pre ++ .returns arr st :: ks1 ∧
            (∀ k ∈ pre, k = .returns [] .no_timeout) ∧
            ((b = false ∧ st = .timeout) ∨ (b = true ∧ st = .no_timeout ∧ arr ≠ [])))) ∧
      (s.self.mailbox.items = [] → ∀ n arr rest,
        ks = List.replicate n (.returns [] .no_timeout) ++ .returns arr .timeout :: rest →
        ∃ s1, await_data_timed abs_time (fuel + 1) ks s = .ok (false, s1, rest) ∧
          s1.self.mailbox.items = arr.map (fun a => new_mailbox_element a.1 a.2)) ∧
      (s.self.mailbox.items = [] → ∀ n a arr rest,
        ks = List.replicate n (.returns [] .no_timeout) ++
          .returns (a :: arr) .no_timeout :: rest →
        ∃ s1, await_data_timed abs_time (fuel + 2) ks s = .ok (true, s1, rest) ∧
          s1.self.mailbox.items = (a :: arr).map (fun a => new_mailbox_element a.1 a.2)) := by
  have hop : s.self.mailbox.is_closed = false := hopen
  refine ⟨?_, ?_, ?_, ?_⟩
  · intro hne
    have he : s.self.mailbox.empty = false := by
      simpa [single_reader_queue.empty] using hne
    simp [await_data_timed, hopen, await_data_timed_loop, he]
  · intro b s1 ks1 h
    obtain ⟨_, h2, h3⟩ := await_data_timed_spec _ _ _ _ _ _ _ h
    simp only [await_data_timed, hopen] at h
    refine ⟨h2, h3, ?_, ?_⟩
    · obtain ⟨mid, hmid, hall⟩ := await_data_timed_loop_extends _ _ _ _ _ _ _ h
      refine ⟨mid, hmid, fun t ht => ?_⟩
      simpa [by_timed_await] using hall _ ht
    · intro hemp
      obtain ⟨pre, arr, st, e1, e2, e3, _⟩ :=
        await_data_timed_loop_char _ _ _ _ _ _ _ hop hemp h
      exact ⟨pre, arr, st, e1, e2, e3⟩
  · intro hemp n arr rest hks
    have he : s.self.mailbox.empty = true := by simp [single_reader_queue.empty, hemp]
    subst hks
    refine ⟨{ (deliver
        { s with trace := s.trace ++ [.lock] ++ List.replicate n (.wait_until abs_time) ++
            [.wait_until abs_time] } arr) with
        trace := (deliver
          { s with trace := s.trace ++ [.lock] ++ List.replicate n (.wait_until abs_time) ++
              [.wait_until abs_time] } arr).trace ++ [.unlock] }, ?_, ?_⟩
    · rw [await_data_timed, if_neg (by simp [hopen]), await_data_timed_loop, if_pos he,
        wait_until_loop_spurious abs_time n _ { s with trace := s.trace ++ [.lock] } hemp]
      simp only [wait_until_loop, he, if_true]
    · simp only
      rw [deliver_open]
      · simp [hemp]
      · exact hop
  · intro hemp n a arr rest hks
    have he : s.self.mailbox.empty = true := by simp [single_reader_queue.empty, hemp]
    subst hks
    have hne : (deliver
        { s with trace := s.trace ++ [.lock] ++ List.replicate n (.wait_until abs_time) ++
            [.wait_until abs_time] } (a :: arr)).self.mailbox.empty = false := by
      rw [single_reader_queue.empty, deliver_open]
      · simp
      · exact hop
    refine ⟨{ (deliver
        { s with trace := s.trace ++ [.lock] ++ List.replicate n (.wait_until abs_time) ++
            [.wait_until abs_time] } (a :: arr)) with
        trace := (deliver
          { s with trace := s.trace ++ [.lock] ++ List.replicate n (.wait_until abs_time) ++
              [.wait_until abs_time] } (a :: arr)).trace ++ [.unlock] }, ?_, ?_⟩
    · rw [await_data_timed, if_neg (by simp [hopen]), await_data_timed_loop, if_pos he,
        wait_until_loop_spurious abs_time n _ { s with trace := s.trace ++ [.lock] } hemp]
      simp only [wait_until_loop, he, if_true, reduceCtorEq, if_false]
      rw [wait_until_loop_ready _ _ _ hne]
      simp only
      exact await_data_timed_loop_ready _ _ _ _ hne
    · simp only
      rw [deliver_open]
      · simp [hemp]
      · exact hop

/-- C16 at the idle actor: after one spurious wake-up, a wake-up that reports the
timeout gives `false` (also when an element has arrived in that wait), and a
wake-up before the deadline with an element gives `true`. -/
theorem C16_timed_await_data_witness :
    (∃ s1, await_data_timed 99 1
        [.returns [] .no_timeout, .returns [(sample.plain_hdr 1, 5)] .timeout] sample.idle =
          .ok (false, s1, []) ∧
        s1.self.mailbox.items = [new_mailbox_element (sample.plain_hdr 1) 5]) ∧
      (∃ s1, await_data_timed 99 2
        [.returns [] .no_timeout, .returns [(sample.plain_hdr 1, 5)] .no_timeout] sample.idle =
          .ok (true, s1, []) ∧
        s1.self.mailbox.items = [new_mailbox_element (sample.plain_hdr 1) 5]) :=
  ⟨(C16_timed_await_data 99 0
      [.returns [] .no_timeout, .returns [(sample.plain_hdr 1, 5)] .timeout] sample.idle
      rfl).2.2.1 rfl 1 [(sample.plain_hdr 1, 5)] [] rfl,
   (C16_timed_await_data 99 0
      [.returns [] .no_timeout, .returns [(sample.plain_hdr 1, 5)] .no_timeout] sample.idle
      rfl).2.2.2 rfl 1 (sample.plain_hdr 1, 5) [] [] rfl⟩

end worker_claims

/-! ## Interleavings of one producer and the waiting consumer -/

namespace interleaving
open no_scheduling
variable {M W : Type}

theorem invariant_start (s : system M W) (hdr : message_header) (msg : M)
    (hopen : s.self.mailbox.is_closed = false) (hemp : s.self.mailbox.items = []) :
    invariant (start s hdr msg) := by
  simp [invariant, start, hopen, hemp]

set_option maxHeartbeats 1000000 in
theorem invariant_waiter_step (c c1 : config M W) (hinv : invariant c)
    (h : waiter_step c = some c1) : invariant c1 := by
  obtain ⟨⟨⟨⟨items, cl⟩, st, er, per⟩, tr, w⟩, hdr, msg, owner, notified, wpc, ppc⟩ := c
  simp only [invariant] at hinv
  obtain ⟨i1, i2, i3, i4, i5, i6, i7, i8, i9⟩ := hinv
  subst i1 i2
  cases wpc <;> cases ppc <;> cases notified <;>
    simp_all [waiter_step, invariant, single_reader_queue.empty, log] <;>
    first
      | (obtain ⟨h1, h2⟩ := h; subst h1 h2; simp_all)
      | (subst h; simp_all)

set_option maxHeartbeats 1000000 in
theorem invariant_producer_step (c c1 : config M W) (hinv : invariant c)
    (h : producer_step c = some c1) : invariant c1 := by
  obtain ⟨⟨⟨⟨items, cl⟩, st, er, per⟩, tr, w⟩, hdr, msg, owner, notified, wpc, ppc⟩ := c
  simp only [invariant] at hinv
  obtain ⟨i1, i2, i3, i4, i5, i6, i7, i8, i9⟩ := hinv
  subst i1 i2
  cases ppc <;> cases wpc <;> cases notified <;>
    simp_all [producer_step, invariant, single_reader_queue.enqueue, log] <;>
    first
      | (obtain ⟨h1, h2⟩ := h; subst h1 h2; simp_all)
      | (subst h; simp_all)

theorem invariant_step (a : action) (c c1 : config M W) (hinv : invariant c)
    (h : step a c = some c1) : invariant c1 := by
  cases a with
  | run t =>
    cases t
    · exact invariant_waiter_step c c1 hinv h
    · exact invariant_producer_step c c1 hinv h
  | spurious =>
    obtain ⟨sys, hdr, msg, owner, notified, wpc, ppc⟩ := c
    simp only [step] at h
    split at h
    · next hb =>
      cases h
      obtain ⟨hb1, hb2⟩ := hb
      subst hb1 hb2
      simp_all [invariant]
    · cases h

set_option maxHeartbeats 1000000 in
theorem rank_waiter_step (c c1 : config M W) (hinv : invariant c)
    (h : waiter_step c = some c1) : rank c1 + 1 ≤ rank c := by
  obtain ⟨⟨⟨⟨items, cl⟩, st, er, per⟩, tr, w⟩, hdr, msg, owner, notified, wpc, ppc⟩ := c
  simp only [invariant] at hinv
  obtain ⟨i1, i2, i3, i4, i5, i6, i7, i8, i9⟩ := hinv
  subst i1 i2
  cases wpc <;> cases ppc <;> cases notified <;>
    simp_all [waiter_step, single_reader_queue.empty, log] <;>
    first
      | (obtain ⟨h1, h2⟩ := h; subst h1 h2; simp [rank, single_reader_queue.empty])
      | (subst h; simp [rank, single_reader_queue.empty])

set_option maxHeartbeats 1000000 in
theorem rank_producer_step (c c1 : config M W) (hinv : invariant c)
    (h : producer_step c = some c1) : rank c1 + 1 ≤ rank c := by
  obtain ⟨⟨⟨⟨items, cl⟩, st, er, per⟩, tr, w⟩, hdr, msg, owner, notified, wpc, ppc⟩ := c
  simp only [invariant] at hinv
  obtain ⟨i1, i2, i3, i4, i5, i6, i7, i8, i9⟩ := hinv
  subst i1 i2
  cases ppc <;> cases wpc <;> cases notified <;>
    simp_all [producer_step, single_reader_queue.enqueue, log] <;>
    first
      | (obtain ⟨h1, h2⟩ := h; subst h1 h2; simp [rank, single_reader_queue.empty])
      | (subst h; simp [rank, single_reader_queue.empty])

theorem rank_step (a : action) (c c1 : config M W) (hinv : invariant c)
    (h : step a c = some c1) :
    rank c1 + 1 ≤ rank c + (if a = .spurious then 4 else 0) := by
  cases a with
  | run t =>
    cases t
    · simpa using rank_waiter_step c c1 hinv h
    · simpa using rank_producer_step c c1 hinv h
  | spurious =>
    obtain ⟨sys, hdr, msg, owner, notified, wpc, ppc⟩ := c
    simp only [step] at h
    split at h
    · next hb =>
      cases h
      obtain ⟨hb1, hb2⟩ := hb
      subst hb1 hb2
      simp only [rank, Bool.false_eq_true, if_false, if_true]
      omega
    · cases h

theorem run_spec (sched : List action) (c0 c : config M W) (hinv : invariant c0)
    (h : run sched c0 = some c) :
    invariant c ∧ sched.length + rank c ≤ rank c0 + 4 * sched.count .spurious := by
  induction sched generalizing c0 with
  | nil =>
    simp only [run] at h
    cases h
    exact ⟨hinv, by simp⟩
  | cons a rest ih =>
    simp only [run] at h
    rcases hs : step a c0 with _ | c1
    · rw [hs] at h; cases h
    · rw [hs] at h
      obtain ⟨h1, h2⟩ := ih c1 (invariant_step a c0 c1 hinv hs) h
      refine ⟨h1, ?_⟩
      have h3 := rank_step a c0 c1 hinv hs
      by_cases ha : a = .spurious
      · subst ha
        simp only [if_true] at h3
        simp only [List.length_cons, List.count_cons_self]
        omega
      · simp only [ha, if_false] at h3
        have hc : (a :: rest).count .spurious = rest.count .spurious := by
          rw [List.count_cons_of_ne (Ne.symm ha)]
        simp only [List.length_cons, hc]
        omega

set_option maxHeartbeats 1000000 in
theorem progress (c : config M W) (hinv : invariant c)
    (hnot : c.wpc ≠ .returned ∨ c.ppc ≠ .finished) :
    (waiter_step c).isSome = true ∨ (producer_step c).isSome = true := by
  obtain ⟨⟨⟨⟨items, cl⟩, st, er, per⟩, tr, w⟩, hdr, msg, owner, notified, wpc, ppc⟩ := c
  simp only [invariant] at hinv
  obtain ⟨i1, i2, i3, i4, i5, i6, i7, i8, i9⟩ := hinv
  subst i1 i2
  rcases owner with _ | _ | _ <;> cases wpc <;> cases ppc <;> cases notified <;>
    simp_all [waiter_step, producer_step, single_reader_queue.enqueue]

theorem step_args (a : action) (c c1 : config M W) (h : step a c = some c1) :
    c1.hdr = c.hdr ∧ c1.msg = c.msg := by
  obtain ⟨sys, hdr, msg, owner, notified, wpc, ppc⟩ := c
  cases a with
  | run t =>
    cases t
    · simp only [step, waiter_step] at h
      cases wpc <;> simp only at h <;> (try split at h) <;> cases h <;> exact ⟨rfl, rfl⟩
    · simp only [step, producer_step] at h
      cases ppc <;> simp only at h <;> (try split at h) <;> cases h <;> exact ⟨rfl, rfl⟩
  | spurious =>
    simp only [step] at h
    split at h <;> cases h
    exact ⟨rfl, rfl⟩

theorem run_args (sched : List action) (c0 c : config M W) (h : run sched c0 = some c) :
    c.hdr = c0.hdr ∧ c.msg = c0.msg := by
  induction sched generalizing c0 with
  | nil => simp only [run] at h; cases h; exact ⟨rfl, rfl⟩
  | cons a rest ih =>
    simp only [run] at h
    rcases hs : step a c0 with _ | c1
    · rw [hs] at h; cases h
    · rw [hs] at h
      obtain ⟨h1, h2⟩ := ih c1 h
      obtain ⟨h3, h4⟩ := step_args a c0 c1 hs
      exact ⟨h1.trans h3, h2.trans h4⟩

theorem producer_alone (s : system M W) (hdr : message_header) (msg : M)
    (hopen : s.self.mailbox.is_closed = false) (hemp : s.self.mailbox.items = []) :
    run (List.replicate 5 (.run .producer)) (start s hdr msg) =
      some { start s hdr msg with sys := enqueue s hdr msg, ppc := .finished } := by
  obtain ⟨⟨⟨items, cl⟩, st, er, per⟩, tr, w⟩ := s
  simp only at hopen hemp
  subst hopen hemp
  simp [run, step, producer_step, start, enqueue, single_reader_queue.enqueue, log,
    List.replicate]

end interleaving

section interleaving_claims
open no_scheduling interleaving
variable {M W : Type}

/-- C18: no lost wake-up.  One consumer in the untimed `await_data` and one producer
in `enqueue` start on an empty open mailbox; the scheduler picks the thread that
takes the next step, and may end the consumer's sleep spuriously.  The push is
one step of the queue, and `m_cv.wait` releases the mutex and falls asleep in
one step.  For every interleaving `sched` and the configuration `c` it reaches:
the mailbox holds the element once from the push on; a consumer that is asleep
and not notified still has the producer's `notify_one` before it; unless both
threads are through, one of them can take a step; the interleaving has at most
`31` steps plus four per spurious wake-up; and when neither thread can take a
step the consumer has returned and the mailbox holds the element exactly once.
The producer's steps taken in one go give what `enqueue` gives. -/
theorem C18_no_lost_wakeup (s : system M W) (hdr : message_header) (msg : M)
    (sched : List action) (c : config M W)
    (hopen : s.self.mailbox.closed = false) (hemp : s.self.mailbox.items = [])
    (hrun : run sched (start s hdr msg) = some c) :
    c.sys.self.mailbox.items =
        (if c.ppc = .push then [] else [new_mailbox_element hdr msg]) ∧
      (c.wpc = .returned → c.sys.self.mailbox.items = [new_mailbox_element hdr msg]) ∧
      (c.wpc = .blocked → c.notified = false →
        (c.ppc = .push ∨ c.ppc = .lock ∨ c.ppc = .set_state ∨ c.ppc = .notify)) ∧
      ((c.wpc ≠ .returned ∨ c.ppc ≠ .finished) →
        ((step (.run .waiter) c).isSome = true ∨ (step (.run .producer) c).isSome = true)) ∧
      sched.length + rank c ≤ 31 + 4 * sched.count .spurious ∧
      (step (.run .waiter) c = none → step (.run .producer) c = none →
        c.wpc = .returned ∧ c.ppc = .finished ∧
          c.sys.self.mailbox.items = [new_mailbox_element hdr msg]) ∧
      (∃ c5, run (List.replicate 5 (.run .producer)) (start s hdr msg) = some c5 ∧
        c5.ppc = .finished ∧ c5.sys = enqueue s hdr msg) := by
  have hop : s.self.mailbox.is_closed = false := hopen
  have hstart : rank (start s hdr msg) = 31 := by
    simp [rank, start, single_reader_queue.empty, hemp]
  obtain ⟨hinv, hlen⟩ := run_spec sched _ c (invariant_start s hdr msg hop hemp) hrun
  obtain ⟨ha1, ha2⟩ := run_args sched _ c hrun
  simp only [start] at ha1 ha2
  rw [hstart] at hlen
  have hitems := hinv.2.1
  rw [ha1, ha2] at hitems
  have hret : c.wpc = .returned → c.sys.self.mailbox.items = [new_mailbox_element hdr msg] := by
    intro hw
    have := hinv.2.2.2.2.2.2.2.2 (Or.inr hw)
    rw [hitems, if_neg this]
  refine ⟨hitems, hret, hinv.2.2.2.2.2.2.1, fun hn => progress c hinv hn, hlen, ?_, ?_⟩
  · intro hw hp
    have hboth : ¬ (c.wpc ≠ .returned ∨ c.ppc ≠ .finished) := by
      intro hn
      rcases progress c hinv hn with h1 | h1
      · have : (step (.run .waiter) c).isSome = true := h1
        rw [hw] at this; simp at this
      · have : (step (.run .producer) c).isSome = true := h1
        rw [hp] at this; simp at this
    have h1 : c.wpc = .returned := by
      by_contra hx; exact hboth (Or.inl hx)
    have h2 : c.ppc = .finished := by
      by_contra hx; exact hboth (Or.inr hx)
    exact ⟨h1, h2, hret h1⟩
  · exact ⟨_, producer_alone s hdr msg hop hemp, rfl, rfl⟩

/-- C18 at the idle actor and the interleaving in which the push falls between the
consumer's inner check and its wait: the consumer is woken and returns with the
element in the mailbox. -/
theorem C18_no_lost_wakeup_witness :
    ∃ c, run sample.critical (start sample.idle (sample.plain_hdr 1) 10) = some c ∧
      c.wpc = .returned ∧
      c.sys.self.mailbox.items = [new_mailbox_element (sample.plain_hdr 1) 10] :=
  ⟨_, rfl, rfl,
    (C18_no_lost_wakeup sample.idle (sample.plain_hdr 1) 10 sample.critical _ rfl rfl rfl).2.1
      rfl⟩

end interleaving_claims

end cppa
